import Mathlib

/-! Holme-Kim network growth (lcelib/nets/models/HolmeKim.H)

A shallow embedding of the template function `HolmeKim` and the properties of
its growth loop.

Conventions of the embedding.

* `size_t` values are natural numbers; the one subtraction of the function,
  `args.m-1`, is taken modulo `2^64`.  The two diagnostic counters are
  incremented once per toss and a run stores two `PAVector` entries per
  committed link, so they stay far below the word size and are plain naturals.
* `float` values (`args.pt`, the result of `generator.nextNormed()`) are only
  ever compared, never computed with.  Finite floats are rationals and their
  order is the order of the rationals, so they are values of `ℚ`.
* The `do ... while` rejection loops have no bound in the source.  Each of them
  is given `fuel` iterations; running out is the result `Fault.stalled`.
* `PAVector[...]` and `availableNeighs[...]` with an index that is not below
  the size is undefined behaviour in the source; here it is the result
  `Fault.outOfBounds`.
* `assert` lines are not part of the transition function (they vanish under
  `NDEBUG`); what they assert is proved.
* The lines printed under `#ifdef DEBUG` ("Chose initial PA target", "Chose TF
  target", ...) are kept as a list of `Pick` records.
-/

namespace Lcelib

/-! ## Collaborators that are template parameters or other headers -/

/-- Modelled from the spec: the network container (`NetType`, from `Nets.H`,
which is not among the sources).  A mapping from node identifier to its
neighbour collection together with the node count reported by `size()`, the
number of nodes created so far; the nodes are `0, ..., size - 1`.  The list
order is the iteration order of `theNet(u).begin()`. -/
structure Net where
  size : Nat
  adj : Nat → List Nat

/-- Modelled from the spec: `Set<size_t>::put` (from `Containers.H`).  Putting a
member that is already present changes nothing; a new member comes last in the
iteration order. -/
def setPut (s : List Nat) (x : Nat) : List Nat :=
  if x ∈ s then s else s ++ [x]

/-- Degree of a node: `theNet(u).size()`. -/
def Net.degree (net : Net) (u : Nat) : Nat :=
  (net.adj u).length

/-- Neighbour test: `theNet(u).contains(v)`. -/
def Net.contains (net : Net) (u v : Nat) : Bool :=
  decide (v ∈ net.adj u)

/-- Modelled from the spec: `theNet[i][k]=1` on a symmetric network.  The edge
is entered at both endpoints; entering an edge that is present changes
nothing.  Node identifiers are dense and assigned in creation order, and node
`i` is created when the growth loop processes iteration `i`: entering an edge
at a node that does not exist yet creates the nodes up to it. -/
def Net.setEdge (net : Net) (i k : Nat) : Net :=
  { size := max net.size (max i k + 1)
    adj := fun w =>
      if w = i then setPut (net.adj i) k
      else if w = k then setPut (net.adj k) i
      else net.adj w }

/-- Modelled from the spec: `ClearNet(theNet, n)` (from `Nets.H`): afterwards
the network has no edge.  No node has been created yet: the seed generator
builds the first `seedSize` nodes and each growth step creates one more; `n`
is the number of node identifiers that the run will use. -/
def ClearNet (_theNet : Net) (_n : Nat) : Net :=
  { size := 0, adj := fun _ => [] }

/-- The random source (`Generator`, a template parameter): a deterministic
machine on a state `σ`.  `next s n` is `generator.next(n)` and `nextNormed s`
is `generator.nextNormed()`, each returning the value drawn and the next
state. -/
structure Generator (σ : Type) where
  next : σ → Nat → Nat × σ
  nextNormed : σ → ℚ × σ

/-- The seed types of `SeedNet.H`, as they are named in `readHolmeKimArgs`. -/
inductive SeedType where
  | RANDOM
  | CLIQUE
  | RING
  | CHAIN
  deriving DecidableEq, Repr

/-- The struct into which command line arguments are read. -/
structure HolmeKimArgs where
  netSize : Nat
  randseed : Int
  m : Nat
  pt : ℚ
  seedSize : Nat
  seedType : SeedType
  k_ave : ℚ

/-- The argument struct handed to `generateSeedNetwork`. -/
structure SeedArgs where
  netSize : Nat
  seedSize : Nat
  seedType : SeedType
  k_ave : ℚ

/-- The seed generator `generateSeedNetwork(theNet, seedArgs, generator)` of
`SeedNet.H`, which is not among the sources: a parameter of the model. -/
abbrev SeedGenerator (σ : Type) : Type :=
  Net → SeedArgs → σ → Net × σ

/-! ## The function `HolmeKim` -/

/-- Ways in which a run fails to return. -/
inductive Fault where
  | stalled
  | outOfBounds
  deriving DecidableEq, Repr

/-- One line of the `DEBUG` output of target selection. -/
inductive Pick where
  /-- The line "Chose initial PA target". -/
  | initialPA (PANode : Nat)
  /-- The line "Chose TF target"; `PANode` is the node whose neighbours were scanned. -/
  | TF (PANode TFNode : Nat)
  /-- The line "Chose PA target ... since TF step was unsuccessful". -/
  | fallbackPA (PANode : Nat)
  /-- The line "Chose PA target (with probability 1-p)". -/
  | PA (PANode : Nat)
  deriving DecidableEq, Repr

/-- The node that a pick put into the target set. -/
def Pick.node : Pick → Nat
  | .initialPA p => p
  | .TF _ t => t
  | .fallbackPA p => p
  | .PA p => p

/-- Whether a pick is a preferential-attachment draw from `PAVector`. -/
def Pick.isPA : Pick → Bool
  | .TF _ _ => false
  | _ => true

/-- The value of `args.m-1` in `size_t` arithmetic. -/
def mMinusOne (m : Nat) : Nat :=
  (m + (2 ^ 64 - 1)) % 2 ^ 64

/-- The variables of `HolmeKim` that live across growth steps. -/
structure State (σ : Type) where
  theNet : Net
  PAVector : List Nat
  tosscounter : Nat
  TFtosscounter : Nat
  gen : σ
  log : List (Nat × Pick)

/-- The variables of one growth step during target selection. -/
structure Sel (σ : Type) where
  targets : List Nat
  PANode : Nat
  tosscounter : Nat
  TFtosscounter : Nat
  gen : σ
  picks : List Pick

/-- The rejection loop
`do { PANode=PAVector[generator.next(PAVector.size())]; } while (targets.contains(PANode));`
returning the node picked and the generator state. -/
def pickPA {σ : Type} (g : Generator σ) (PAVector targets : List Nat) :
    Nat → σ → Except Fault (Nat × σ)
  | 0, _ => .error .stalled
  | fuel + 1, s =>
    match PAVector[(g.next s PAVector.length).1]? with
    | none => .error .outOfBounds
    | some PANode =>
      if PANode ∈ targets then pickPA g PAVector targets fuel (g.next s PAVector.length).2
      else .ok (PANode, (g.next s PAVector.length).2)

/-- The neighbours of `PANode` that were not picked during this time step, in
iteration order. -/
def availableNeighs (theNet : Net) (PANode : Nat) (targets : List Nat) : List Nat :=
  (theNet.adj PANode).filter (fun k => !decide (k ∈ targets))

/-- The block guarded by `if (toss<args.pt)`: the TF counter is incremented,
then a triangle formation step is made if an unpicked neighbour of `PANode`
exists, else a preferential pick. -/
def tfBranch {σ : Type} (g : Generator σ) (fuel : Nat) (theNet : Net) (PAVector : List Nat)
    (x : Sel σ) : Except Fault (Sel σ) :=
  let TFtosscounter := x.TFtosscounter + 1
  let avail := availableNeighs theNet x.PANode x.targets
  if avail.length > 0 then
    match avail[(g.next x.gen avail.length).1]? with
    | none => .error .outOfBounds
    | some TFNode =>
      .ok { x with
            targets := setPut x.targets TFNode
            TFtosscounter := TFtosscounter
            gen := (g.next x.gen avail.length).2
            picks := x.picks ++ [Pick.TF x.PANode TFNode] }
  else
    match pickPA g PAVector x.targets fuel x.gen with
    | .error e => .error e
    | .ok (PANode, s) =>
      .ok { x with
            targets := setPut x.targets PANode
            PANode := PANode
            TFtosscounter := TFtosscounter
            gen := s
            picks := x.picks ++ [Pick.fallbackPA PANode] }

/-- The block guarded by `if (toss>=args.pt)`: a preferential pick. -/
def paBranch {σ : Type} (g : Generator σ) (fuel : Nat) (PAVector : List Nat)
    (x : Sel σ) : Except Fault (Sel σ) :=
  match pickPA g PAVector x.targets fuel x.gen with
  | .error e => .error e
  | .ok (PANode, s) =>
    .ok { x with
          targets := setPut x.targets PANode
          PANode := PANode
          gen := s
          picks := x.picks ++ [Pick.PA PANode] }

/-- The body of `for (size_t j=0; j<(args.m-1); ++j)`: one toss, then the two
`if` statements in sequence. -/
def tossStep {σ : Type} (g : Generator σ) (pt : ℚ) (fuel : Nat) (theNet : Net)
    (PAVector : List Nat) (x : Sel σ) : Except Fault (Sel σ) :=
  let toss := (g.nextNormed x.gen).1
  let x0 : Sel σ := { x with gen := (g.nextNormed x.gen).2, tosscounter := x.tosscounter + 1 }
  match (if toss < pt then tfBranch g fuel theNet PAVector x0 else .ok x0) with
  | .error e => .error e
  | .ok x1 => if toss ≥ pt then paBranch g fuel PAVector x1 else .ok x1

/-- The loop `for (size_t j=0; j<(args.m-1); ++j)`, given its number of
iterations. -/
def tossLoop {σ : Type} (g : Generator σ) (pt : ℚ) (fuel : Nat) (theNet : Net)
    (PAVector : List Nat) : Nat → Sel σ → Except Fault (Sel σ)
  | 0, x => .ok x
  | n + 1, x =>
    match tossStep g pt fuel theNet PAVector x with
    | .error e => .error e
    | .ok x' => tossLoop g pt fuel theNet PAVector n x'

/-- Target selection for one new node: the first preferential pick followed by
the toss loop. -/
def selectTargets {σ : Type} (g : Generator σ) (args : HolmeKimArgs) (fuel : Nat)
    (st : State σ) : Except Fault (Sel σ) :=
  match pickPA g st.PAVector [] fuel st.gen with
  | .error e => .error e
  | .ok (PANode, s) =>
    tossLoop g args.pt fuel st.theNet st.PAVector (mMinusOne args.m)
      { targets := setPut [] PANode
        PANode := PANode
        tosscounter := st.tosscounter
        TFtosscounter := st.TFtosscounter
        gen := s
        picks := [Pick.initialPA PANode] }

/-- The loop that links the new node `i` to the chosen targets, in the
iteration order of the target set. -/
def linkTargets (i : Nat) : List Nat → Net × List Nat → Net × List Nat
  | [], acc => acc
  | k :: rest, (theNet, PAVector) =>
    linkTargets i rest (theNet.setEdge i k, PAVector ++ [i, k])

/-- The body of the growth loop: adding node `i`. -/
def addNode {σ : Type} (g : Generator σ) (args : HolmeKimArgs) (fuel : Nat) (i : Nat)
    (st : State σ) : Except Fault (State σ) :=
  match selectTargets g args fuel st with
  | .error e => .error e
  | .ok sel =>
    .ok { theNet := (linkTargets i sel.targets (st.theNet, st.PAVector)).1
          PAVector := (linkTargets i sel.targets (st.theNet, st.PAVector)).2
          tosscounter := sel.tosscounter
          TFtosscounter := sel.TFtosscounter
          gen := sel.gen
          log := st.log ++ sel.picks.map (fun p => (i, p)) }

/-- The growth loop `for (size_t i=...; i<...; ++i)`, started at `i` with `n`
iterations to go. -/
def growthLoop {σ : Type} (g : Generator σ) (args : HolmeKimArgs) (fuel : Nat) :
    Nat → Nat → State σ → Except Fault (State σ)
  | _, 0, st => .ok st
  | i, n + 1, st =>
    match addNode g args fuel i st with
    | .error e => .error e
    | .ok st' => growthLoop g args fuel (i + 1) n st'

/-- Initialisation of `PAVector` from the seed network: for `k` below
`seedSize`, one entry `k` per neighbour of `k`. -/
def initPAVector (theNet : Net) : Nat → List Nat
  | 0 => []
  | k + 1 => initPAVector theNet k ++ List.replicate (theNet.degree k) k

/-- The network after `ClearNet` and `generateSeedNetwork`, with the generator
state it leaves. -/
def seedNetwork {σ : Type} (seedGen : SeedGenerator σ) (args : HolmeKimArgs) (theNet : Net)
    (s : σ) : Net × σ :=
  seedGen (ClearNet theNet args.netSize)
    { netSize := args.netSize, seedSize := args.seedSize
      seedType := args.seedType, k_ave := args.k_ave } s

/-- The state of `HolmeKim` when the growth loop is entered. -/
def seeded {σ : Type} (seedGen : SeedGenerator σ) (args : HolmeKimArgs) (theNet : Net)
    (s : σ) : State σ :=
  { theNet := (seedNetwork seedGen args theNet s).1
    PAVector := initPAVector (seedNetwork seedGen args theNet s).1 args.seedSize
    tosscounter := 0
    TFtosscounter := 0
    gen := (seedNetwork seedGen args theNet s).2
    log := [] }

/-- The state after the first `k` growth steps (nodes `seedSize`, ...,
`seedSize + k - 1` added). -/
def grown {σ : Type} (g : Generator σ) (seedGen : SeedGenerator σ) (args : HolmeKimArgs)
    (fuel : Nat) (theNet : Net) (s : σ) (k : Nat) : Except Fault (State σ) :=
  growthLoop g args fuel args.seedSize k (seeded seedGen args theNet s)

/-- The function `HolmeKim(theNet, args, generator)`: the state when it
returns. -/
def HolmeKim {σ : Type} (g : Generator σ) (seedGen : SeedGenerator σ) (args : HolmeKimArgs)
    (fuel : Nat) (theNet : Net) (s : σ) : Except Fault (State σ) :=
  grown g seedGen args fuel theNet s (args.netSize - args.seedSize)

/-! ## Quantities the properties are about -/

/-- The number of edges that node `u` has to nodes with a smaller identifier. -/
def Net.edgesAt (net : Net) (u : Nat) : Nat :=
  ((net.adj u).filter (fun v => decide (v < u))).length

/-- The number of edges of the network: every edge is counted once, at its
endpoint with the larger identifier. -/
def Net.numEdges (net : Net) : Nat :=
  ((List.range net.size).map net.edgesAt).sum

/-- The sum of all node degrees, as summed up before the assertion
`degreesum==PAVector.size()`. -/
def Net.degreeSum (net : Net) : Nat :=
  ((List.range net.size).map net.degree).sum

/-- All edges of the network lie among the nodes `[0, n)`. -/
def Net.EdgesBelow (net : Net) (n : Nat) : Prop :=
  ∀ u v, v ∈ net.adj u → u < n ∧ v < n

/-- Modelled from the spec: what the network container and the seed generator
(`Nets.H`, `SeedNet.H`) guarantee of the seed network, for a run that is to
end with `netSize` nodes.  It is the initial graph of `seedSize` nodes, it is
restricted to the nodes `[0, seedSize)`, and it is a graph: undirected,
without self-loops and without parallel edges. -/
structure SeedContract (seed : Net) (netSize seedSize : Nat) : Prop where
  size_eq : seed.size = seedSize
  edgesBelow : seed.EdgesBelow seedSize
  symm : ∀ u v, v ∈ seed.adj u → u ∈ seed.adj v
  irrefl : ∀ u, u ∉ seed.adj u
  nodup : ∀ u, (seed.adj u).Nodup

/-! ## A sample configuration

The scenario `netSize=10, seedSize=4, seedType=clique, m=2` with a fixed
random source, on which the theorems are instantiated. -/

/-- Links node `u` to the nodes `0, ..., n-1`. -/
def linkBelow (net : Net) (u : Nat) : Nat → Net
  | 0 => net
  | v + 1 => (linkBelow net u v).setEdge u v

/-- Links every pair of the nodes `0, ..., n-1`. -/
def cliqueNet (net : Net) : Nat → Net
  | 0 => net
  | u + 1 => linkBelow (cliqueNet net u) u u

/-- Modelled from the spec: a seed generator (`SeedNet.H` is not among the
sources) that creates the nodes `[0, seedSize)`, links every pair of them and
draws no random number. -/
def cliqueSeed {σ : Type} : SeedGenerator σ :=
  fun theNet seedArgs s =>
    (cliqueNet { size := seedArgs.seedSize, adj := theNet.adj } seedArgs.seedSize, s)

/-- A sample random source: its state counts the draws; the integers follow a
linear pattern reduced into `[0, n)`, the floats cycle through 0, 1/4, 1/2,
3/4. -/
def sampleGen : Generator Nat :=
  { next := fun s n => ((7 * s + 3) % n, s + 1)
    nextNormed := fun s => (mkRat (s % 4) 4, s + 1) }

/-- The sample arguments, for a given `pt`. -/
def sampleArgs (pt : ℚ) : HolmeKimArgs :=
  { netSize := 10, randseed := 1, m := 2, pt := pt, seedSize := 4
    seedType := SeedType.CLIQUE, k_ave := 2 }

/-- A network object as handed to `HolmeKim` before it is cleared. -/
def emptyNet : Net :=
  { size := 0, adj := fun _ => [] }

/-- Whether a run returned. -/
def ranOk {α : Type} : Except Fault α → Bool
  | .ok _ => true
  | .error _ => false

/-- The value a run returned, or `d` when it did not return. -/
def okOr {α : Type} (r : Except Fault α) (d : α) : α :=
  match r with
  | .ok a => a
  | .error _ => d

/-- The value of `pt` one half. -/
def halfPt : ℚ :=
  mkRat 1 2

/-- A placeholder for the state of a run that did not return. -/
def noState : State Nat :=
  { theNet := emptyNet, PAVector := [], tosscounter := 0, TFtosscounter := 0, gen := 0, log := [] }

/-- A placeholder for the selection variables of a step that did not return. -/
def noSel : Sel Nat :=
  { targets := [], PANode := 0, tosscounter := 0, TFtosscounter := 0, gen := 0, picks := [] }

/-- The sample run after `k` growth steps, with 8 iterations allowed to each
rejection loop. -/
def sampleState (pt : ℚ) (k : Nat) : State Nat :=
  okOr (grown sampleGen cliqueSeed (sampleArgs pt) 8 emptyNet 0 k) noState

/-- Target selection of the sample run for the node added after `k` growth
steps. -/
def sampleSel (pt : ℚ) (k : Nat) : Sel Nat :=
  okOr (selectTargets sampleGen (sampleArgs pt) 8 (sampleState pt k)) noSel

/-- The state in which the sample run leaves the growth step after `k` earlier
ones. -/
def sampleNext (pt : ℚ) (k : Nat) : State Nat :=
  okOr (addNode sampleGen (sampleArgs pt) 8 (4 + k) (sampleState pt k)) noState

/-- The state in which the sample run returns. -/
def sampleFinal (pt : ℚ) : State Nat :=
  okOr (HolmeKim sampleGen cliqueSeed (sampleArgs pt) 8 emptyNet 0) noState

/-! ## Auxiliary predicates of the proofs -/

/-- What one iteration of the toss loop did, given the pick it logged. -/
def StepSpec {σ : Type} (theNet : Net) (PAVector : List Nat) (pt toss : ℚ)
    (x : Sel σ) (pick : Pick) (x' : Sel σ) : Prop :=
  x'.tosscounter = x.tosscounter + 1 ∧ x'.picks = x.picks ++ [pick] ∧
  x'.targets = x.targets ++ [pick.node] ∧ pick.node ∉ x.targets ∧
  match pick with
  | .initialPA _ => False
  | .TF p t =>
      toss < pt ∧ p = x.PANode ∧ t ∈ theNet.adj p ∧ x'.PANode = x.PANode ∧
        x'.TFtosscounter = x.TFtosscounter + 1
  | .fallbackPA p =>
      toss < pt ∧ p ∈ PAVector ∧ x'.PANode = p ∧ x'.TFtosscounter = x.TFtosscounter + 1 ∧
        availableNeighs theNet x.PANode x.targets = []
  | .PA p => pt ≤ toss ∧ p ∈ PAVector ∧ x'.PANode = p ∧ x'.TFtosscounter = x.TFtosscounter

/-- Facts about the selection variables that hold whenever the toss loop is at
the head of an iteration. -/
structure SelInv {σ : Type} (theNet : Net) (PAVector : List Nat) (x : Sel σ) : Prop where
  nodup : x.targets.Nodup
  targets_eq : x.targets = x.picks.map Pick.node
  pa_mem : x.PANode ∈ x.targets
  pa_src : x.PANode ∈ PAVector
  reach : ∀ t ∈ x.targets, t ∈ PAVector ∨ ∃ p ∈ PAVector, t ∈ theNet.adj p

/-- The selection variables after the first preferential pick. -/
def firstSel {σ : Type} (st : State σ) (PANode : Nat) (s : σ) : Sel σ :=
  { targets := [PANode]
    PANode := PANode
    tosscounter := st.tosscounter
    TFtosscounter := st.TFtosscounter
    gen := s
    picks := [Pick.initialPA PANode] }

/-- The targets are new neighbours of `i`: what makes every committed link a
new edge. -/
def Fresh (net : Net) (i : Nat) (ts : List Nat) : Prop :=
  ts.Nodup ∧ ∀ t ∈ ts, t < i ∧ t ∉ net.adj i ∧ i ∉ net.adj t

/-- Facts about the state at the head of the growth step that adds node `i`. -/
structure Inv {σ : Type} (i : Nat) (st : State σ) : Prop where
  edgesBelow : st.theNet.EdgesBelow i
  count_eq : ∀ u, st.PAVector.count u = st.theNet.degree u

/-! ## The function `readHolmeKimArgs` -/

/-- The conversion of an `int` to `size_t` that the assignments
`args.netSize=atoi(...)`, `args.m=atoi(...)` and `args.seedSize=atoi(...)`
make: the value modulo `2^64`. -/
def toSizeT (z : Int) : Nat :=
  (z % 2 ^ 64).toNat

/-- The string `argv[k]`.  The list `argv` holds the program name at index 0,
and `argc` is its length. -/
def argAt (argv : List String) (k : Nat) : String :=
  argv.getD k ""

/-- The function `readHolmeKimArgs(args, argc, argv)`.  The library functions
`atoi` and `atof` are parameters.  The result is the struct that was filled
in, or the status of `exit`.  Messages to `std::cerr` are left out. -/
def readHolmeKimArgs (atoi : String → Int) (atof : String → ℚ) (argv : List String) :
    Except Nat HolmeKimArgs :=
  if argv.length < 6 + 1 then .error 1
  else
    let netSize := toSizeT (atoi (argAt argv 1))
    let randseed := atoi (argAt argv 2)
    let m := toSizeT (atoi (argAt argv 3))
    let pt := atof (argAt argv 4)
    let seedSize := toSizeT (atoi (argAt argv 5))
    if seedSize > netSize then .error 1
    else
      let seedType :=
        if argAt argv 6 = "random" then SeedType.RANDOM
        else if argAt argv 6 = "clique" then SeedType.CLIQUE
        else if argAt argv 6 = "ring" then SeedType.RING
        else if argAt argv 6 = "chain" then SeedType.CHAIN
        else SeedType.RANDOM
      let k_ave :=
        if seedType = SeedType.RANDOM then
          if argv.length ≥ 7 + 1 then atof (argAt argv 7) else 2
        else 2
      .ok { netSize := netSize, randseed := randseed, m := m, pt := pt
            seedSize := seedSize, seedType := seedType, k_ave := k_ave }

/-- Reads decimal digits up to the first character that is not a digit. -/
def readDigits : List Char → Nat → Nat
  | [], acc => acc
  | c :: cs, acc => if c.isDigit then readDigits cs (10 * acc + (c.toNat - 48)) else acc

/-- A sample `atoi`: an optional minus sign followed by decimal digits. -/
def sampleAtoi (s : String) : Int :=
  match s.toList with
  | '-' :: cs => -((readDigits cs 0 : Nat) : Int)
  | cs => ((readDigits cs 0 : Nat) : Int)

/-- A sample `atof`, defined on the three values of `pt` of the sample runs. -/
def sampleAtof (s : String) : ℚ :=
  if s = "0.5" then halfPt else if s = "1.0" then 1 else 0

/-- A sample command line; its last argument is the seed type. -/
def sampleArgv (m seedType : String) : List String :=
  ["HolmeKim", "10", "1", m, "0.5", "4", seedType]

/-- The random source returns an integer in `[0, n)` when asked for
`next(n)` with `n > 0`. -/
def GenInRange {σ : Type} (g : Generator σ) : Prop :=
  ∀ s n, 0 < n → (g.next s n).1 < n

/-- Arguments under which target selection cannot finish: a seed of two nodes
and `m = 3`. -/
def stallArgs : HolmeKimArgs :=
  { netSize := 5, randseed := 1, m := 3, pt := halfPt, seedSize := 2
    seedType := SeedType.CLIQUE, k_ave := 2 }

/-- The sample arguments with `m = 0`. -/
def zeroArgs : HolmeKimArgs :=
  { netSize := 10, randseed := 1, m := 0, pt := halfPt, seedSize := 4
    seedType := SeedType.CLIQUE, k_ave := 2 }

/-! # Theorems -/


/-! ## Containers -/

theorem mem_setPut {s : List Nat} {x y : Nat} : y ∈ setPut s x ↔ y ∈ s ∨ y = x := by
  unfold setPut
  split
  · constructor
    · exact fun h => Or.inl h
    · rintro (h | rfl)
      · exact h
      · assumption
  · simp

theorem setPut_of_not_mem {s : List Nat} {x : Nat} (h : x ∉ s) : setPut s x = s ++ [x] := by
  simp [setPut, h]

theorem setPut_of_mem {s : List Nat} {x : Nat} (h : x ∈ s) : setPut s x = s := by
  simp [setPut, h]

theorem nodup_setPut {s : List Nat} (x : Nat) (h : s.Nodup) : (setPut s x).Nodup := by
  by_cases hx : x ∈ s
  · rwa [setPut_of_mem hx]
  · rw [setPut_of_not_mem hx]
    exact List.Nodup.append h (List.nodup_singleton x) (by simpa using hx)

/-! ## The rejection loop -/

theorem pickPA_ok {σ : Type} (g : Generator σ) (PAVector targets : List Nat) :
    ∀ (fuel : Nat) (s s' : σ) (p : Nat),
      pickPA g PAVector targets fuel s = .ok (p, s') → p ∈ PAVector ∧ p ∉ targets := by
  intro fuel
  induction fuel with
  | zero => intro s s' p h; simp [pickPA] at h
  | succ n ih =>
    intro s s' p h
    rw [pickPA] at h
    split at h
    · simp at h
    · rename_i q hq
      split at h
      · exact ih _ _ _ h
      · simp only [Except.ok.injEq, Prod.mk.injEq] at h
        obtain ⟨rfl, -⟩ := h
        exact ⟨List.getElem?_mem hq, by assumption⟩

/-! ## One toss -/

theorem tfBranch_ok {σ : Type} (g : Generator σ) (fuel : Nat) (theNet : Net)
    (PAVector : List Nat) (x x' : Sel σ) (h : tfBranch g fuel theNet PAVector x = .ok x') :
    x'.tosscounter = x.tosscounter ∧ x'.TFtosscounter = x.TFtosscounter + 1 ∧
    ((∃ t, t ∈ theNet.adj x.PANode ∧ t ∉ x.targets ∧ x'.targets = x.targets ++ [t] ∧
        x'.picks = x.picks ++ [Pick.TF x.PANode t] ∧ x'.PANode = x.PANode) ∨
     (∃ p, p ∈ PAVector ∧ p ∉ x.targets ∧ x'.targets = x.targets ++ [p] ∧
        x'.picks = x.picks ++ [Pick.fallbackPA p] ∧ x'.PANode = p ∧
        availableNeighs theNet x.PANode x.targets = [])) := by
  unfold tfBranch at h
  simp only at h
  split at h
  · split at h
    · simp at h
    · rename_i t ht
      have hmem : t ∈ availableNeighs theNet x.PANode x.targets := List.getElem?_mem ht
      simp only [availableNeighs, List.mem_filter, Bool.not_eq_true', decide_eq_false_iff_not] at hmem
      simp only [Except.ok.injEq] at h
      subst h
      refine ⟨rfl, rfl, Or.inl ⟨t, hmem.1, hmem.2, ?_, rfl, rfl⟩⟩
      exact setPut_of_not_mem hmem.2
  · rename_i hlen
    split at h
    · simp at h
    · rename_i p s hp
      obtain ⟨hp1, hp2⟩ := pickPA_ok _ _ _ _ _ _ _ hp
      simp only [Except.ok.injEq] at h
      subst h
      refine ⟨rfl, rfl, Or.inr ⟨p, hp1, hp2, setPut_of_not_mem hp2, rfl, rfl, ?_⟩⟩
      exact List.length_eq_zero.mp (by omega)

theorem paBranch_ok {σ : Type} (g : Generator σ) (fuel : Nat)
    (PAVector : List Nat) (x x' : Sel σ) (h : paBranch g fuel PAVector x = .ok x') :
    x'.tosscounter = x.tosscounter ∧ x'.TFtosscounter = x.TFtosscounter ∧
    ∃ p, p ∈ PAVector ∧ p ∉ x.targets ∧ x'.targets = x.targets ++ [p] ∧
        x'.picks = x.picks ++ [Pick.PA p] ∧ x'.PANode = p := by
  unfold paBranch at h
  split at h
  · simp at h
  · rename_i p s hp
    obtain ⟨hp1, hp2⟩ := pickPA_ok _ _ _ _ _ _ _ hp
    simp only [Except.ok.injEq] at h
    subst h
    exact ⟨rfl, rfl, p, hp1, hp2, setPut_of_not_mem hp2, rfl, rfl⟩

theorem tossStep_spec {σ : Type} (g : Generator σ) (pt : ℚ) (fuel : Nat) (theNet : Net)
    (PAVector : List Nat) (x x' : Sel σ) (h : tossStep g pt fuel theNet PAVector x = .ok x') :
    ∃ pick, StepSpec theNet PAVector pt (g.nextNormed x.gen).1 x pick x' := by
  unfold tossStep at h
  simp only at h
  by_cases htoss : (g.nextNormed x.gen).1 < pt
  · have hnot : ¬ (g.nextNormed x.gen).1 ≥ pt := not_le.mpr htoss
    simp only [htoss, if_true, hnot, if_false] at h
    split at h
    · simp at h
    · rename_i x1 hx1
      simp only [Except.ok.injEq] at h
      subst h
      obtain ⟨h1, h2, h3 | h3⟩ := tfBranch_ok _ _ _ _ _ _ hx1
      · obtain ⟨t, ht1, ht2, ht3, ht4, ht5⟩ := h3
        exact ⟨Pick.TF x.PANode t, h1, ht4, ht3, ht2, htoss, rfl, ht1, ht5, h2⟩
      · obtain ⟨p, hp1, hp2, hp3, hp4, hp5, hp6⟩ := h3
        exact ⟨Pick.fallbackPA p, h1, hp4, hp3, hp2, htoss, hp1, hp5, h2, hp6⟩
  · have hge : (g.nextNormed x.gen).1 ≥ pt := not_lt.mp htoss
    simp only [htoss, if_false, hge, if_true] at h
    obtain ⟨h1, h2, p, hp1, hp2, hp3, hp4, hp5⟩ := paBranch_ok _ _ _ _ _ h
    exact ⟨Pick.PA p, h1, hp4, hp3, hp2, hge, hp1, hp5, h2⟩

/-! ## The toss loop -/

theorem tossLoop_induct {σ : Type} (g : Generator σ) (pt : ℚ) (fuel : Nat) (theNet : Net)
    (PAVector : List Nat) (P : Sel σ → Prop)
    (hstep : ∀ x x', P x → tossStep g pt fuel theNet PAVector x = .ok x' → P x') :
    ∀ (n : Nat) (x x' : Sel σ), P x → tossLoop g pt fuel theNet PAVector n x = .ok x' → P x' := by
  intro n
  induction n with
  | zero =>
    intro x x' hx h
    simp only [tossLoop, Except.ok.injEq] at h
    exact h ▸ hx
  | succ n ih =>
    intro x x' hx h
    rw [tossLoop] at h
    split at h
    · simp at h
    · rename_i x1 hx1
      exact ih x1 x' (hstep x x1 hx hx1) h

theorem tossLoop_count {σ : Type} (g : Generator σ) (pt : ℚ) (fuel : Nat) (theNet : Net)
    (PAVector : List Nat) :
    ∀ (n : Nat) (x x' : Sel σ), tossLoop g pt fuel theNet PAVector n x = .ok x' →
      x'.tosscounter = x.tosscounter + n ∧ x'.targets.length = x.targets.length + n := by
  intro n
  induction n with
  | zero =>
    intro x x' h
    simp only [tossLoop, Except.ok.injEq] at h
    subst h
    exact ⟨rfl, rfl⟩
  | succ n ih =>
    intro x x' h
    rw [tossLoop] at h
    split at h
    · simp at h
    · rename_i x1 hx1
      obtain ⟨pick, h1, -, h3, -⟩ := tossStep_spec _ _ _ _ _ _ _ hx1
      obtain ⟨h4, h5⟩ := ih x1 x' h
      constructor
      · rw [h4, h1]; omega
      · rw [h5, h3]; simp; omega

theorem SelInv.afterToss {σ : Type} {g : Generator σ} {pt : ℚ} {fuel : Nat} {theNet : Net}
    {PAVector : List Nat} (x x' : Sel σ) (hx : SelInv theNet PAVector x)
    (h : tossStep g pt fuel theNet PAVector x = .ok x') : SelInv theNet PAVector x' := by
  obtain ⟨pick, -, h2, h3, h4, h5⟩ := tossStep_spec _ _ _ _ _ _ _ h
  have hnodup : x'.targets.Nodup := by
    rw [h3]
    exact List.Nodup.append hx.nodup (List.nodup_singleton _) (by simpa using h4)
  have heq : x'.targets = x'.picks.map Pick.node := by
    rw [h3, h2, hx.targets_eq]; simp
  cases pick with
  | initialPA p => exact absurd h5 id
  | TF p t =>
    obtain ⟨-, hp, ht, hpa, -⟩ := h5
    refine ⟨hnodup, heq, ?_, hpa ▸ hx.pa_src, ?_⟩
    · rw [hpa, h3]; exact List.mem_append_left _ hx.pa_mem
    · intro u hu
      rw [h3] at hu
      rcases List.mem_append.mp hu with hu | hu
      · exact hx.reach u hu
      · simp only [Pick.node, List.mem_singleton] at hu
        subst hu
        exact Or.inr ⟨p, hp ▸ hx.pa_src, ht⟩
  | fallbackPA p =>
    obtain ⟨-, hp, hpa, -⟩ := h5
    refine ⟨hnodup, heq, ?_, hpa ▸ hp, ?_⟩
    · rw [hpa, h3]; simp [Pick.node]
    · intro u hu
      rw [h3] at hu
      rcases List.mem_append.mp hu with hu | hu
      · exact hx.reach u hu
      · simp only [Pick.node, List.mem_singleton] at hu
        subst hu
        exact Or.inl hp
  | PA p =>
    obtain ⟨-, hp, hpa, -⟩ := h5
    refine ⟨hnodup, heq, ?_, hpa ▸ hp, ?_⟩
    · rw [hpa, h3]; simp [Pick.node]
    · intro u hu
      rw [h3] at hu
      rcases List.mem_append.mp hu with hu | hu
      · exact hx.reach u hu
      · simp only [Pick.node, List.mem_singleton] at hu
        subst hu
        exact Or.inl hp

theorem mMinusOne_of_pos {m : Nat} (h1 : 1 ≤ m) (h2 : m < 2 ^ 64) : mMinusOne m = m - 1 := by
  unfold mMinusOne
  omega

theorem selectTargets_cases {σ : Type} (g : Generator σ) (args : HolmeKimArgs) (fuel : Nat)
    (st : State σ) (sel : Sel σ) (h : selectTargets g args fuel st = .ok sel) :
    ∃ p s, p ∈ st.PAVector ∧
      tossLoop g args.pt fuel st.theNet st.PAVector (mMinusOne args.m) (firstSel st p s)
        = .ok sel := by
  unfold selectTargets at h
  split at h
  · simp at h
  · rename_i p s hp
    exact ⟨p, s, (pickPA_ok _ _ _ _ _ _ _ hp).1, h⟩

theorem selectTargets_inv {σ : Type} (g : Generator σ) (args : HolmeKimArgs) (fuel : Nat)
    (st : State σ) (sel : Sel σ) (h : selectTargets g args fuel st = .ok sel) :
    SelInv st.theNet st.PAVector sel ∧
      sel.targets.length = 1 + mMinusOne args.m ∧
      sel.tosscounter = st.tosscounter + mMinusOne args.m := by
  obtain ⟨p, s, hp, hloop⟩ := selectTargets_cases _ _ _ _ _ h
  have h0 : SelInv st.theNet st.PAVector (firstSel st p s) :=
    ⟨List.nodup_singleton p, rfl, List.mem_singleton_self p, hp,
      fun t ht => Or.inl (by rw [List.mem_singleton.mp ht]; exact hp)⟩
  refine ⟨tossLoop_induct _ _ _ _ _ _ (fun x x' => SelInv.afterToss x x') _ _ _ h0 hloop, ?_, ?_⟩
  · rw [(tossLoop_count _ _ _ _ _ _ _ _ hloop).2]; simp [firstSel]
  · rw [(tossLoop_count _ _ _ _ _ _ _ _ hloop).1]; rfl

/-! ## Entering edges -/

theorem mem_setEdge (net : Net) (i k u v : Nat) :
    v ∈ (net.setEdge i k).adj u ↔ v ∈ net.adj u ∨ (u = i ∧ v = k) ∨ (u = k ∧ v = i) := by
  simp only [Net.setEdge]
  by_cases hi : u = i
  · subst hi
    rw [if_pos rfl, mem_setPut]
    constructor
    · rintro (h | h)
      · exact Or.inl h
      · exact Or.inr (Or.inl ⟨rfl, h⟩)
    · rintro (h | ⟨_, h⟩ | ⟨h1, h2⟩)
      · exact Or.inl h
      · exact Or.inr h
      · exact Or.inr (h2.trans h1)
  · by_cases hk : u = k
    · subst hk
      rw [if_neg hi, if_pos rfl, mem_setPut]
      constructor
      · rintro (h | h)
        · exact Or.inl h
        · exact Or.inr (Or.inr ⟨rfl, h⟩)
      · rintro (h | ⟨h, _⟩ | ⟨_, h⟩)
        · exact Or.inl h
        · exact absurd h hi
        · exact Or.inr h
    · simp [hi, hk]

theorem setEdge_adj_of_ne (net : Net) {i k u : Nat} (hi : u ≠ i) (hk : u ≠ k) :
    (net.setEdge i k).adj u = net.adj u := by
  simp [Net.setEdge, hi, hk]

theorem setEdge_adj_self (net : Net) {i k : Nat} (h : k ∉ net.adj i) :
    (net.setEdge i k).adj i = net.adj i ++ [k] := by
  simp [Net.setEdge, setPut_of_not_mem h]

theorem setEdge_adj_target (net : Net) {i k : Nat} (hne : k ≠ i) (h : i ∉ net.adj k) :
    (net.setEdge i k).adj k = net.adj k ++ [i] := by
  simp [Net.setEdge, hne, setPut_of_not_mem h]

theorem linkTargets_size (i : Nat) : ∀ (ts : List Nat) (net : Net) (pa : List Nat),
    (∀ t ∈ ts, t < i) → ts ≠ [] →
    (linkTargets i ts (net, pa)).1.size = max net.size (i + 1) := by
  intro ts
  induction ts with
  | nil => intro net pa _ h; exact absurd rfl h
  | cons k rest ih =>
    intro net pa hlt _
    have hk : k < i := hlt k (List.mem_cons_self _ _)
    have hstep : (net.setEdge i k).size = max net.size (i + 1) := by
      show max net.size (max i k + 1) = max net.size (i + 1)
      rw [Nat.max_eq_left (Nat.le_of_lt hk)]
    rw [linkTargets]
    cases hrest : rest with
    | nil => exact hstep
    | cons k' rest' =>
      rw [← hrest, ih _ _ (fun t ht => hlt t (List.mem_cons_of_mem _ ht))
        (by rw [hrest]; exact List.cons_ne_nil _ _), hstep]
      omega

theorem linkTargets_snd (i : Nat) : ∀ (ts : List Nat) (net : Net) (pa : List Nat),
    (linkTargets i ts (net, pa)).2 = pa ++ ts.flatMap (fun k => [i, k]) := by
  intro ts
  induction ts with
  | nil => intro net pa; simp [linkTargets]
  | cons k rest ih => intro net pa; rw [linkTargets, ih]; simp

theorem mem_linkTargets (i : Nat) : ∀ (ts : List Nat) (net : Net) (pa : List Nat) (u v : Nat),
    v ∈ (linkTargets i ts (net, pa)).1.adj u ↔
      v ∈ net.adj u ∨ (u = i ∧ v ∈ ts) ∨ (v = i ∧ u ∈ ts) := by
  intro ts
  induction ts with
  | nil => intro net pa u v; simp [linkTargets]
  | cons k rest ih =>
    intro net pa u v
    rw [linkTargets, ih, mem_setEdge]
    simp only [List.mem_cons]
    tauto

theorem linkTargets_adj_of_ne (i : Nat) : ∀ (ts : List Nat) (net : Net) (pa : List Nat) (u : Nat),
    u ≠ i → u ∉ ts → (linkTargets i ts (net, pa)).1.adj u = net.adj u := by
  intro ts
  induction ts with
  | nil => intro net pa u _ _; rfl
  | cons k rest ih =>
    intro net pa u hi hu
    rw [List.mem_cons, not_or] at hu
    rw [linkTargets, ih _ _ u hi hu.2, setEdge_adj_of_ne net hi hu.1]

theorem Fresh.tail {net : Net} {i k : Nat} {rest : List Nat} (h : Fresh net i (k :: rest)) :
    Fresh (net.setEdge i k) i rest := by
  obtain ⟨hnd, hall⟩ := h
  rw [List.nodup_cons] at hnd
  refine ⟨hnd.2, fun t ht => ?_⟩
  obtain ⟨h1, h2, h3⟩ := hall t (List.mem_cons_of_mem _ ht)
  have hk : k < i := (hall k (List.mem_cons_self _ _)).1
  have htk : t ≠ k := fun e => hnd.1 (e ▸ ht)
  refine ⟨h1, ?_, ?_⟩
  · rw [mem_setEdge]
    rintro (h | ⟨-, h⟩ | ⟨h, -⟩)
    · exact h2 h
    · exact htk h
    · omega
  · rw [mem_setEdge]
    rintro (h | ⟨h, -⟩ | ⟨h, -⟩)
    · exact h3 h
    · omega
    · exact htk h

theorem degree_setEdge (net : Net) {i k : Nat} (hk : k < i) (h1 : k ∉ net.adj i)
    (h2 : i ∉ net.adj k) (u : Nat) :
    (net.setEdge i k).degree u =
      net.degree u + (if u = i then 1 else 0) + (if u = k then 1 else 0) := by
  unfold Net.degree
  by_cases hi : u = i
  · subst hi
    have : u ≠ k := by omega
    rw [setEdge_adj_self net h1]; simp [this]
  · by_cases hk' : u = k
    · subst hk'
      rw [setEdge_adj_target net hi h2]; simp [hi]
    · rw [setEdge_adj_of_ne net hi hk']; simp [hi, hk']

theorem edgesAt_setEdge (net : Net) {i k : Nat} (hk : k < i) (h1 : k ∉ net.adj i)
    (u : Nat) :
    (net.setEdge i k).edgesAt u = net.edgesAt u + (if u = i then 1 else 0) := by
  unfold Net.edgesAt
  by_cases hi : u = i
  · subst hi
    rw [setEdge_adj_self net h1]; simp [hk]
  · by_cases hk' : u = k
    · subst hk'
      simp only [Net.setEdge, hi, if_false, if_true, setPut]
      split
      · rfl
      · have : ¬ i < u := by omega
        simp [this]
    · rw [setEdge_adj_of_ne net hi hk']; simp [hi]

theorem count_cons_ite (u k : Nat) (l : List Nat) :
    List.count u (k :: l) = l.count u + (if u = k then 1 else 0) := by
  rw [List.count_cons]
  by_cases h : u = k
  · subst h; simp
  · have h' : ¬ k = u := fun e => h e.symm
    simp [h, h']

theorem count_pair (i k u : Nat) :
    List.count u [i, k] = (if u = i then 1 else 0) + (if u = k then 1 else 0) := by
  rw [count_cons_ite, count_cons_ite, List.count_nil]; omega

theorem degree_linkTargets (i : Nat) : ∀ (ts : List Nat) (net : Net) (pa : List Nat),
    Fresh net i ts → ∀ u, (linkTargets i ts (net, pa)).1.degree u =
      net.degree u + (if u = i then ts.length else 0) + ts.count u := by
  intro ts
  induction ts with
  | nil => intro net pa _ u; simp [linkTargets]
  | cons k rest ih =>
    intro net pa h u
    obtain ⟨hk, h1, h2⟩ := h.2 k (List.mem_cons_self _ _)
    rw [linkTargets, ih _ _ h.tail u, degree_setEdge net hk h1 h2 u, count_cons_ite,
      List.length_cons]
    split <;> omega

theorem count_linkTargets (i : Nat) : ∀ (ts : List Nat) (net : Net) (pa : List Nat) (u : Nat),
    (linkTargets i ts (net, pa)).2.count u =
      pa.count u + (if u = i then ts.length else 0) + ts.count u := by
  intro ts
  induction ts with
  | nil => intro net pa u; simp [linkTargets]
  | cons k rest ih =>
    intro net pa u
    rw [linkTargets, ih, List.count_append, count_pair, count_cons_ite, List.length_cons]
    split <;> omega

theorem edgesAt_linkTargets (i : Nat) : ∀ (ts : List Nat) (net : Net) (pa : List Nat),
    Fresh net i ts → ∀ u, (linkTargets i ts (net, pa)).1.edgesAt u =
      net.edgesAt u + (if u = i then ts.length else 0) := by
  intro ts
  induction ts with
  | nil => intro net pa _ u; simp [linkTargets]
  | cons k rest ih =>
    intro net pa h u
    obtain ⟨hk, h1, -⟩ := h.2 k (List.mem_cons_self _ _)
    rw [linkTargets, ih _ _ h.tail u, edgesAt_setEdge net hk h1 u, List.length_cons]
    split <;> omega

theorem sum_range_bump (f f' : Nat → Nat) (i c : Nat)
    (h : ∀ u, f' u = f u + (if u = i then c else 0)) :
    ∀ n, ((List.range n).map f').sum =
      ((List.range n).map f).sum + (if i < n then c else 0) := by
  intro n
  induction n with
  | zero => simp
  | succ n ih =>
    rw [List.range_succ, List.map_append, List.map_append, List.sum_append, List.sum_append, ih]
    simp only [List.map_cons, List.map_nil, List.sum_cons, List.sum_nil, Nat.add_zero]
    rw [h n]
    by_cases h1 : i < n
    · have : n ≠ i := by omega
      simp [h1, this, Nat.lt_succ_of_lt h1]; omega
    · by_cases h2 : n = i
      · subst h2; simp; omega
      · have : ¬ i < n + 1 := by omega
        simp [h1, h2, this]

theorem edgesAt_of_edgesBelow (net : Net) (i : Nat) (h : net.EdgesBelow i) :
    net.edgesAt i = 0 := by
  unfold Net.edgesAt
  cases hadj : net.adj i with
  | nil => rfl
  | cons v rest => exact absurd (h i v (by rw [hadj]; exact List.mem_cons_self _ _)).1 (Nat.lt_irrefl i)

theorem numEdges_linkTargets (i : Nat) (ts : List Nat) (net : Net) (pa : List Nat)
    (h : Fresh net i ts) (hne : ts ≠ []) (hsize : net.size = i) (hb : net.EdgesBelow i) :
    (linkTargets i ts (net, pa)).1.numEdges = net.numEdges + ts.length := by
  unfold Net.numEdges
  rw [linkTargets_size i ts net pa (fun t ht => (h.2 t ht).1) hne, hsize,
    Nat.max_eq_right (Nat.le_succ i),
    sum_range_bump _ _ i ts.length (edgesAt_linkTargets i ts net pa h), if_pos (Nat.lt_succ_self i),
    List.range_succ, List.map_append, List.sum_append]
  simp [edgesAt_of_edgesBelow net i hb]

/-! ## The growth loop -/

theorem addNode_cases {σ : Type} (g : Generator σ) (args : HolmeKimArgs) (fuel i : Nat)
    (st st' : State σ) (h : addNode g args fuel i st = .ok st') :
    ∃ sel, selectTargets g args fuel st = .ok sel ∧
      st'.theNet = (linkTargets i sel.targets (st.theNet, st.PAVector)).1 ∧
      st'.PAVector = (linkTargets i sel.targets (st.theNet, st.PAVector)).2 ∧
      st'.tosscounter = sel.tosscounter ∧ st'.TFtosscounter = sel.TFtosscounter ∧
      st'.log = st.log ++ sel.picks.map (fun p => (i, p)) := by
  unfold addNode at h
  split at h
  · simp at h
  · rename_i sel hsel
    simp only [Except.ok.injEq] at h
    subst h
    exact ⟨sel, hsel, rfl, rfl, rfl, rfl, rfl⟩

theorem growthLoop_induct {σ : Type} (g : Generator σ) (args : HolmeKimArgs) (fuel : Nat)
    (P : Nat → State σ → Prop)
    (hstep : ∀ i st st', P i st → addNode g args fuel i st = .ok st' → P (i + 1) st') :
    ∀ (n i : Nat) (st st' : State σ), P i st →
      growthLoop g args fuel i n st = .ok st' → P (i + n) st' := by
  intro n
  induction n with
  | zero =>
    intro i st st' hP h
    simp only [growthLoop, Except.ok.injEq] at h
    exact h ▸ hP
  | succ n ih =>
    intro i st st' hP h
    rw [growthLoop] at h
    split at h
    · simp at h
    · rename_i st1 hst1
      have := ih (i + 1) st1 st' (hstep i st st1 hP hst1) h
      rwa [Nat.add_assoc, Nat.add_comm 1 n] at this

theorem Inv.pa_lt {σ : Type} {i : Nat} {st : State σ} (h : Inv i st) :
    ∀ x ∈ st.PAVector, x < i := by
  intro x hx
  have h1 : 0 < st.PAVector.count x := List.count_pos_iff.mpr hx
  rw [h.count_eq x] at h1
  obtain ⟨v, hv⟩ := List.exists_mem_of_length_pos h1
  exact (h.edgesBelow x v hv).1

theorem Inv.fresh {σ : Type} {g : Generator σ} {args : HolmeKimArgs} {fuel i : Nat}
    {st : State σ} {sel : Sel σ} (h : Inv i st) (hsel : selectTargets g args fuel st = .ok sel) :
    Fresh st.theNet i sel.targets := by
  obtain ⟨hinv, -, -⟩ := selectTargets_inv _ _ _ _ _ hsel
  refine ⟨hinv.nodup, fun t ht => ⟨?_, ?_, ?_⟩⟩
  · rcases hinv.reach t ht with h1 | ⟨p, -, hp⟩
    · exact h.pa_lt t h1
    · exact (h.edgesBelow p t hp).2
  · intro hmem
    exact absurd (h.edgesBelow i t hmem).1 (Nat.lt_irrefl i)
  · intro hmem
    exact absurd (h.edgesBelow t i hmem).2 (Nat.lt_irrefl i)

theorem Inv.afterNode {σ : Type} {g : Generator σ} {args : HolmeKimArgs} {fuel : Nat}
    (i : Nat) (st st' : State σ) (h : Inv i st) (hadd : addNode g args fuel i st = .ok st') :
    Inv (i + 1) st' := by
  obtain ⟨sel, hsel, hnet, hpa, -⟩ := addNode_cases _ _ _ _ _ _ hadd
  have hfresh := h.fresh hsel
  constructor
  · intro u v hv
    rw [hnet, mem_linkTargets] at hv
    rcases hv with hv | ⟨rfl, hv⟩ | ⟨rfl, hv⟩
    · have := h.edgesBelow u v hv
      omega
    · have := (hfresh.2 v hv).1
      omega
    · have := (hfresh.2 u hv).1
      omega
  · intro u
    rw [hnet, hpa, count_linkTargets, degree_linkTargets i _ _ _ hfresh, h.count_eq]

theorem count_initPAVector (net : Net) (u : Nat) : ∀ n,
    (initPAVector net n).count u = if u < n then net.degree u else 0 := by
  intro n
  induction n with
  | zero => simp [initPAVector]
  | succ n ih =>
    rw [initPAVector, List.count_append, ih, List.count_replicate]
    by_cases h1 : u < n
    · have h2 : ¬ n = u := by omega
      have h3 : u < n + 1 := by omega
      simp [h1, h2, h3]
    · by_cases h2 : n = u
      · subst h2; simp
      · have h3 : ¬ u < n + 1 := by omega
        simp [h1, h2, h3]

theorem Inv.init {σ : Type} (seedGen : SeedGenerator σ) (args : HolmeKimArgs) (theNet : Net)
    (s : σ) (h : (seedNetwork seedGen args theNet s).1.EdgesBelow args.seedSize) :
    Inv args.seedSize (seeded seedGen args theNet s) := by
  refine ⟨h, fun u => ?_⟩
  show (initPAVector _ args.seedSize).count u = _
  rw [count_initPAVector]
  split
  · rfl
  · rename_i hu
    unfold Net.degree
    cases hadj : (seedNetwork seedGen args theNet s).1.adj u with
    | nil => show 0 = ((seedNetwork seedGen args theNet s).1.adj u).length; rw [hadj]; rfl
    | cons v rest =>
      exact absurd (h u v (by rw [hadj]; exact List.mem_cons_self _ _)).1 hu

theorem Inv.grown {σ : Type} (g : Generator σ) (seedGen : SeedGenerator σ) (args : HolmeKimArgs)
    (fuel : Nat) (theNet : Net) (s : σ) (k : Nat) (st : State σ)
    (h : (seedNetwork seedGen args theNet s).1.EdgesBelow args.seedSize)
    (hk : grown g seedGen args fuel theNet s k = .ok st) : Inv (args.seedSize + k) st :=
  growthLoop_induct g args fuel (fun i st => Inv i st) (fun i st st' => Inv.afterNode i st st')
    k args.seedSize _ st (Inv.init seedGen args theNet s h) hk

/-! ## Counting edges -/

theorem sum_range_eq_finset (f : Nat → Nat) : ∀ n,
    ((List.range n).map f).sum = ∑ u in Finset.range n, f u := by
  intro n
  induction n with
  | zero => simp
  | succ n ih =>
    rw [List.range_succ, List.map_append, List.sum_append, ih, Finset.sum_range_succ]
    simp

theorem length_filter_eq_card (l : List Nat) (hnd : l.Nodup) (n : Nat) (hlt : ∀ v ∈ l, v < n)
    (p : Nat → Bool) :
    (l.filter p).length = ((Finset.range n).filter (fun v => v ∈ l ∧ p v = true)).card := by
  rw [← List.toFinset_card_of_nodup (hnd.filter p)]
  congr 1
  ext v
  simp only [List.mem_toFinset, List.mem_filter, Finset.mem_filter, Finset.mem_range]
  constructor
  · exact fun h => ⟨hlt v h.1, h⟩
  · exact fun h => h.2

/-- The handshake lemma for a graph on the nodes below `net.size`. -/
theorem degreeSum_eq_two_mul_numEdges (net : Net) (hb : net.EdgesBelow net.size)
    (hsymm : ∀ u v, v ∈ net.adj u → u ∈ net.adj v) (hirr : ∀ u, u ∉ net.adj u)
    (hnd : ∀ u, (net.adj u).Nodup) : net.degreeSum = 2 * net.numEdges := by
  have hlt : ∀ u, ∀ v ∈ net.adj u, v < net.size := fun u v hv => (hb u v hv).2
  have hsplit : ∀ u, net.degree u =
      net.edgesAt u + ((net.adj u).filter (fun v => decide (u < v))).length := by
    intro u
    unfold Net.degree Net.edgesAt
    rw [List.length_eq_length_filter_add (fun v => decide (v < u))]
    congr 2
    apply List.filter_congr
    intro v hv
    have hne : v ≠ u := fun e => hirr u (e ▸ hv)
    by_cases h : v < u
    · have : ¬ u < v := by omega
      simp [h, this]
    · have : u < v := by omega
      simp [h, this]
  have hup : ∀ u, ((net.adj u).filter (fun v => decide (u < v))).length =
      (Finset.bipartiteAbove (fun u v => v ∈ net.adj u ∧ u < v) (Finset.range net.size) u).card := by
    intro u
    rw [length_filter_eq_card _ (hnd u) net.size (hlt u)]
    unfold Finset.bipartiteAbove
    congr 1
    ext v
    simp
  have hdown : ∀ v, net.edgesAt v =
      (Finset.bipartiteBelow (fun u v => v ∈ net.adj u ∧ u < v) (Finset.range net.size) v).card := by
    intro v
    unfold Net.edgesAt
    rw [length_filter_eq_card _ (hnd v) net.size (hlt v)]
    unfold Finset.bipartiteBelow
    congr 1
    ext u
    simp only [Finset.mem_filter, Finset.mem_range, decide_eq_true_eq]
    constructor
    · exact fun h => ⟨h.1, hsymm v u h.2.1, h.2.2⟩
    · exact fun h => ⟨h.1, hsymm u v h.2.1, h.2.2⟩
  unfold Net.degreeSum Net.numEdges
  rw [sum_range_eq_finset, sum_range_eq_finset]
  simp only [hsplit, Finset.sum_add_distrib, hup]
  rw [Finset.sum_card_bipartiteAbove_eq_sum_card_bipartiteBelow]
  simp only [← hdown]
  omega

theorem length_eq_sum_count (n : Nat) : ∀ (l : List Nat), (∀ x ∈ l, x < n) →
    l.length = ((List.range n).map (fun u => l.count u)).sum := by
  intro l
  induction l with
  | nil => intro _; simp
  | cons x l ih =>
    intro h
    rw [sum_range_bump (fun u => l.count u) (fun u => (x :: l).count u) x 1
      (fun u => by simp only [count_cons_ite]), ← ih (fun y hy => h y (List.mem_cons_of_mem _ hy))]
    simp [h x (List.mem_cons_self _ _)]

/-! ## Quantities along the growth loop -/

theorem addNode_counts {σ : Type} {g : Generator σ} {args : HolmeKimArgs} {fuel : Nat}
    (i : Nat) (st st' : State σ) (h : Inv i st) (hi : st.theNet.size = i)
    (hadd : addNode g args fuel i st = .ok st') :
    st'.theNet.size = i + 1 ∧
      st'.theNet.numEdges = st.theNet.numEdges + (1 + mMinusOne args.m) ∧
      st'.PAVector.length = st.PAVector.length + 2 * (1 + mMinusOne args.m) := by
  obtain ⟨sel, hsel, hnet, hpa, -⟩ := addNode_cases _ _ _ _ _ _ hadd
  obtain ⟨-, hlen, -⟩ := selectTargets_inv _ _ _ _ _ hsel
  have hne : sel.targets ≠ [] := List.ne_nil_of_length_pos (by omega)
  have hfresh := h.fresh hsel
  refine ⟨?_, ?_, ?_⟩
  · rw [hnet, linkTargets_size i _ _ _ (fun t ht => (hfresh.2 t ht).1) hne, hi]
    omega
  · rw [hnet, numEdges_linkTargets i _ _ _ hfresh hne hi h.edgesBelow, hlen]
  · rw [hpa, linkTargets_snd, List.length_append, ← hlen]
    congr 1
    generalize sel.targets = ts
    induction ts with
    | nil => rfl
    | cons k rest ih => simp only [List.flatMap_cons, List.length_append, ih]; simp; omega

theorem growthLoop_counts {σ : Type} (g : Generator σ) (args : HolmeKimArgs) (fuel : Nat) :
    ∀ (n i : Nat) (st st' : State σ), Inv i st → st.theNet.size = i →
      growthLoop g args fuel i n st = .ok st' →
      st'.theNet.size = i + n ∧
        st'.theNet.numEdges = st.theNet.numEdges + (1 + mMinusOne args.m) * n ∧
        st'.PAVector.length = st.PAVector.length + 2 * ((1 + mMinusOne args.m) * n) := by
  intro n
  induction n with
  | zero =>
    intro i st st' _ hi h
    simp only [growthLoop, Except.ok.injEq] at h
    subst h
    simp [hi]
  | succ n ih =>
    intro i st st' hinv hi h
    rw [growthLoop] at h
    split at h
    · simp at h
    · rename_i st1 hst1
      obtain ⟨h1, h2, h3⟩ := addNode_counts i st st1 hinv hi hst1
      obtain ⟨h4, h5, h6⟩ := ih (i + 1) st1 st' (hinv.afterNode i st st1 hst1) h1 h
      refine ⟨by rw [h4]; omega, ?_, ?_⟩
      · rw [h5, h2, Nat.mul_succ]; omega
      · rw [h6, h3, Nat.mul_succ]; omega

theorem growthLoop_toss {σ : Type} (g : Generator σ) (args : HolmeKimArgs) (fuel : Nat) :
    ∀ (n i : Nat) (st st' : State σ), growthLoop g args fuel i n st = .ok st' →
      st'.tosscounter = st.tosscounter + mMinusOne args.m * n := by
  intro n
  induction n with
  | zero =>
    intro i st st' h
    simp only [growthLoop, Except.ok.injEq] at h
    subst h
    simp
  | succ n ih =>
    intro i st st' h
    rw [growthLoop] at h
    split at h
    · simp at h
    · rename_i st1 hst1
      obtain ⟨sel, hsel, -, -, htc, -⟩ := addNode_cases _ _ _ _ _ _ hst1
      obtain ⟨-, -, hsc⟩ := selectTargets_inv _ _ _ _ _ hsel
      rw [ih (i + 1) st1 st' h, htc, hsc, Nat.mul_succ]; omega

theorem addNode_degree_pos {σ : Type} {g : Generator σ} {args : HolmeKimArgs} {fuel : Nat}
    (i : Nat) (st st' : State σ) (h : ∀ u < i, 1 ≤ st.theNet.degree u)
    (hadd : addNode g args fuel i st = .ok st') : ∀ u < i + 1, 1 ≤ st'.theNet.degree u := by
  obtain ⟨sel, hsel, hnet, -⟩ := addNode_cases _ _ _ _ _ _ hadd
  obtain ⟨-, hlen, -⟩ := selectTargets_inv _ _ _ _ _ hsel
  have hpos : ∀ u v, v ∈ st'.theNet.adj u → 1 ≤ st'.theNet.degree u :=
    fun u v hv => List.length_pos_of_mem hv
  intro u hu
  by_cases hi : u = i
  · obtain ⟨t, ht⟩ := List.exists_mem_of_length_pos (l := sel.targets) (by omega)
    apply hpos u t
    rw [hnet, mem_linkTargets]
    exact Or.inr (Or.inl ⟨hi, ht⟩)
  · obtain ⟨v, hv⟩ := List.exists_mem_of_length_pos (h u (by omega))
    apply hpos u v
    rw [hnet, mem_linkTargets]
    exact Or.inl hv

theorem pa_length_seeded {σ : Type} (seedGen : SeedGenerator σ) (args : HolmeKimArgs)
    (theNet : Net) (s : σ)
    (hseed : SeedContract (seedNetwork seedGen args theNet s).1 args.netSize args.seedSize) :
    (seeded seedGen args theNet s).PAVector.length =
      2 * (seedNetwork seedGen args theNet s).1.numEdges := by
  have hinv := Inv.init seedGen args theNet s hseed.edgesBelow
  have hb : (seedNetwork seedGen args theNet s).1.EdgesBelow
      (seedNetwork seedGen args theNet s).1.size := by
    rw [hseed.size_eq]
    exact hseed.edgesBelow
  rw [← degreeSum_eq_two_mul_numEdges _ hb hseed.symm hseed.irrefl hseed.nodup,
    length_eq_sum_count args.seedSize _ (fun x hx => hinv.pa_lt x hx)]
  unfold Net.degreeSum
  rw [hseed.size_eq]
  congr 1
  apply List.map_congr_left
  intro u _
  exact hinv.count_eq u

/-! ## Properties of the picks of one growth step -/

theorem selectTargets_induct {σ : Type} (g : Generator σ) (args : HolmeKimArgs) (fuel : Nat)
    (st : State σ) (P : Sel σ → Prop)
    (h0 : ∀ p s, p ∈ st.PAVector → P (firstSel st p s))
    (hstep : ∀ x x', SelInv st.theNet st.PAVector x → P x →
      tossStep g args.pt fuel st.theNet st.PAVector x = .ok x' → P x')
    (sel : Sel σ) (h : selectTargets g args fuel st = .ok sel) : P sel := by
  obtain ⟨p, s, hp, hloop⟩ := selectTargets_cases _ _ _ _ _ h
  have hinv0 : SelInv st.theNet st.PAVector (firstSel st p s) :=
    ⟨List.nodup_singleton p, rfl, List.mem_singleton_self p, hp,
      fun t ht => Or.inl (by rw [List.mem_singleton.mp ht]; exact hp)⟩
  exact (tossLoop_induct g args.pt fuel st.theNet st.PAVector
    (fun x => SelInv st.theNet st.PAVector x ∧ P x)
    (fun x x' hx hx' => ⟨SelInv.afterToss x x' hx.1 hx', hstep x x' hx.1 hx.2 hx'⟩)
    _ _ _ ⟨hinv0, h0 p s hp⟩ hloop).2

/-- With `pt ≤ 0` and tosses that are not negative, a growth step makes no TF
attempt and all of its picks are preferential draws from `PAVector`. -/
theorem selectTargets_purePA {σ : Type} (g : Generator σ) (args : HolmeKimArgs) (fuel : Nat)
    (st : State σ) (sel : Sel σ) (hpt : args.pt ≤ 0) (hg : ∀ s, 0 ≤ (g.nextNormed s).1)
    (h : selectTargets g args fuel st = .ok sel) :
    sel.TFtosscounter = st.TFtosscounter ∧
      ∀ p ∈ sel.picks, p.isPA = true ∧ p.node ∈ st.PAVector := by
  refine selectTargets_induct g args fuel st
    (fun x => x.TFtosscounter = st.TFtosscounter ∧
      ∀ p ∈ x.picks, p.isPA = true ∧ p.node ∈ st.PAVector) ?_ ?_ sel h
  · intro p s hp
    refine ⟨rfl, fun q hq => ?_⟩
    rw [show (firstSel st p s).picks = [Pick.initialPA p] from rfl, List.mem_singleton] at hq
    subst hq
    exact ⟨rfl, hp⟩
  · intro x x' _ hx hx'
    obtain ⟨pick, -, h2, -, -, h5⟩ := tossStep_spec _ _ _ _ _ _ _ hx'
    have hno : ¬ (g.nextNormed x.gen).1 < args.pt :=
      not_lt.mpr (le_trans hpt (hg x.gen))
    cases pick with
    | initialPA p => exact absurd h5 id
    | TF p t => exact absurd h5.1 hno
    | fallbackPA p => exact absurd h5.1 hno
    | PA p =>
      obtain ⟨-, hp, -, htf⟩ := h5
      refine ⟨htf.trans hx.1, fun q hq => ?_⟩
      rw [h2, List.mem_append, List.mem_singleton] at hq
      rcases hq with hq | rfl
      · exact hx.2 q hq
      · exact ⟨rfl, hp⟩

/-- With `pt ≥ 1` and tosses below one, every toss of a growth step is a TF
attempt and no pick is made by the complementary branch. -/
theorem selectTargets_allTF {σ : Type} (g : Generator σ) (args : HolmeKimArgs) (fuel : Nat)
    (st : State σ) (sel : Sel σ) (hpt : 1 ≤ args.pt) (hg : ∀ s, (g.nextNormed s).1 < 1)
    (h : selectTargets g args fuel st = .ok sel) :
    sel.TFtosscounter + st.tosscounter = st.TFtosscounter + sel.tosscounter ∧
      ∀ p ∈ sel.picks, ∀ q, p ≠ Pick.PA q := by
  refine selectTargets_induct g args fuel st
    (fun x => x.TFtosscounter + st.tosscounter = st.TFtosscounter + x.tosscounter ∧
      ∀ p ∈ x.picks, ∀ q, p ≠ Pick.PA q) ?_ ?_ sel h
  · intro p s _
    refine ⟨rfl, fun q hq r => ?_⟩
    rw [show (firstSel st p s).picks = [Pick.initialPA p] from rfl, List.mem_singleton] at hq
    subst hq
    exact fun e => Pick.noConfusion e
  · intro x x' _ hx hx'
    obtain ⟨pick, h1, h2, -, -, h5⟩ := tossStep_spec _ _ _ _ _ _ _ hx'
    have hno : ¬ args.pt ≤ (g.nextNormed x.gen).1 :=
      not_le.mpr (lt_of_lt_of_le (hg x.gen) hpt)
    have hmem : (∀ r, pick ≠ Pick.PA r) → ∀ p ∈ x'.picks, ∀ q, p ≠ Pick.PA q := by
      intro hne p hp q
      rw [h2, List.mem_append, List.mem_singleton] at hp
      rcases hp with hp | rfl
      · exact hx.2 p hp q
      · exact hne q
    cases pick with
    | initialPA p => exact absurd h5 id
    | TF p t =>
      refine ⟨?_, hmem (fun r e => Pick.noConfusion e)⟩
      have := hx.1
      rw [h5.2.2.2.2, h1]; omega
    | fallbackPA p =>
      refine ⟨?_, hmem (fun r e => Pick.noConfusion e)⟩
      have := hx.1
      rw [h5.2.2.2.1, h1]; omega
    | PA p => exact absurd h5.1 hno

/-- Every triangle formation pick of a growth step took a neighbour of a node
that was in the target set, and one that was not yet in it; the target set at
that moment consists of the nodes of the picks made before. -/
theorem selectTargets_TF {σ : Type} (g : Generator σ) (args : HolmeKimArgs) (fuel : Nat)
    (st : State σ) (sel : Sel σ) (h : selectTargets g args fuel st = .ok sel) :
    ∀ pre post PANode TFNode, sel.picks = pre ++ Pick.TF PANode TFNode :: post →
      TFNode ∈ st.theNet.adj PANode ∧ PANode ∈ pre.map Pick.node ∧
        TFNode ∉ pre.map Pick.node := by
  refine selectTargets_induct g args fuel st
    (fun x => ∀ pre post PANode TFNode, x.picks = pre ++ Pick.TF PANode TFNode :: post →
      TFNode ∈ st.theNet.adj PANode ∧ PANode ∈ pre.map Pick.node ∧
        TFNode ∉ pre.map Pick.node) ?_ ?_ sel h
  · intro p s _ pre post PANode TFNode hpicks
    exfalso
    have hmem : Pick.TF PANode TFNode ∈ (firstSel st p s).picks := by
      rw [hpicks]; simp
    rw [show (firstSel st p s).picks = [Pick.initialPA p] from rfl, List.mem_singleton] at hmem
    exact Pick.noConfusion hmem
  · intro x x' hinv hx hx' pre post PANode TFNode hpicks
    obtain ⟨pick, -, h2, -, h4, h5⟩ := tossStep_spec _ _ _ _ _ _ _ hx'
    rw [h2] at hpicks
    rcases List.eq_nil_or_concat post with rfl | ⟨post', b, rfl⟩
    · obtain ⟨hpre, hpick⟩ := List.append_inj' hpicks rfl
      rw [List.cons.injEq] at hpick
      have hpick := hpick.1
      subst hpick
      subst hpre
      obtain ⟨-, hp, ht, -⟩ := h5
      rw [← hinv.targets_eq]
      exact ⟨ht, hp ▸ hinv.pa_mem, h4⟩
    · rw [List.concat_eq_append, ← List.cons_append, ← List.append_assoc] at hpicks
      exact hx pre post' PANode TFNode (List.append_inj' hpicks rfl).1

/-! ## The sample configuration -/

theorem eq_ok_okOr {α : Type} (r : Except Fault α) (d : α) (h : ranOk r = true) :
    r = .ok (okOr r d) := by
  cases r with
  | ok a => rfl
  | error e => exact absurd h (by simp [ranOk])

theorem nodup_setEdge (net : Net) (i k : Nat) (h : ∀ u, (net.adj u).Nodup) :
    ∀ u, ((net.setEdge i k).adj u).Nodup := by
  intro u
  simp only [Net.setEdge]
  split
  · exact nodup_setPut _ (h i)
  · split
    · exact nodup_setPut _ (h k)
    · exact h u

theorem mem_linkBelow (net : Net) (u : Nat) : ∀ (n w v : Nat),
    v ∈ (linkBelow net u n).adj w ↔ v ∈ net.adj w ∨ (w = u ∧ v < n) ∨ (w < n ∧ v = u) := by
  intro n
  induction n with
  | zero => intro w v; simp [linkBelow]
  | succ n ih =>
    intro w v
    rw [linkBelow, mem_setEdge, ih]
    constructor
    · rintro ((h | ⟨h1, h2⟩ | ⟨h1, h2⟩) | ⟨h1, h2⟩ | ⟨h1, h2⟩)
      · exact Or.inl h
      · exact Or.inr (Or.inl ⟨h1, by omega⟩)
      · exact Or.inr (Or.inr ⟨by omega, h2⟩)
      · exact Or.inr (Or.inl ⟨h1, by omega⟩)
      · exact Or.inr (Or.inr ⟨by omega, h2⟩)
    · rintro (h | ⟨h1, h2⟩ | ⟨h1, h2⟩)
      · exact Or.inl (Or.inl h)
      · by_cases hv : v = n
        · exact Or.inr (Or.inl ⟨h1, hv⟩)
        · exact Or.inl (Or.inr (Or.inl ⟨h1, by omega⟩))
      · by_cases hw : w = n
        · exact Or.inr (Or.inr ⟨hw, h2⟩)
        · exact Or.inl (Or.inr (Or.inr ⟨by omega, h2⟩))

theorem mem_cliqueNet (net : Net) : ∀ (n w v : Nat),
    v ∈ (cliqueNet net n).adj w ↔ v ∈ net.adj w ∨ (w < n ∧ v < n ∧ v ≠ w) := by
  intro n
  induction n with
  | zero => intro w v; simp [cliqueNet]
  | succ n ih =>
    intro w v
    rw [cliqueNet, mem_linkBelow, ih]
    constructor
    · rintro ((h | h) | h | h)
      · exact Or.inl h
      · exact Or.inr (by omega)
      · exact Or.inr (by omega)
      · exact Or.inr (by omega)
    · rintro (h | h)
      · exact Or.inl (Or.inl h)
      · by_cases hw : w = n
        · exact Or.inr (Or.inl (by omega))
        · by_cases hv : v = n
          · exact Or.inr (Or.inr (by omega))
          · exact Or.inl (Or.inr (by omega))

theorem linkBelow_props (net : Net) (u : Nat) (h : ∀ w, (net.adj w).Nodup)
    (hu : u < net.size) : ∀ n, n ≤ u + 1 →
    (linkBelow net u n).size = net.size ∧ ∀ w, ((linkBelow net u n).adj w).Nodup := by
  intro n
  induction n with
  | zero => exact fun _ => ⟨rfl, h⟩
  | succ n ih =>
    intro hn
    obtain ⟨h1, h2⟩ := ih (by omega)
    refine ⟨?_, nodup_setEdge _ _ _ h2⟩
    show max (linkBelow net u n).size (max u n + 1) = net.size
    rw [h1]
    omega

theorem cliqueNet_props (net : Net) (h : ∀ w, (net.adj w).Nodup) : ∀ n, n ≤ net.size →
    (cliqueNet net n).size = net.size ∧ ∀ w, ((cliqueNet net n).adj w).Nodup := by
  intro n
  induction n with
  | zero => exact fun _ => ⟨rfl, h⟩
  | succ n ih =>
    intro hn
    obtain ⟨h1, h2⟩ := ih (by omega)
    have := linkBelow_props (cliqueNet net n) n h2 (by rw [h1]; omega) n (by omega)
    exact ⟨this.1.trans h1, this.2⟩

/-- The fully connected seed meets the contract of the seed generator. -/
theorem cliqueSeed_contract {σ : Type} (args : HolmeKimArgs) (theNet : Net) (s : σ) :
    SeedContract (seedNetwork cliqueSeed args theNet s).1 args.netSize args.seedSize := by
  have hmem : ∀ w v, v ∈ (seedNetwork cliqueSeed args theNet s).1.adj w ↔
      (w < args.seedSize ∧ v < args.seedSize ∧ v ≠ w) := by
    intro w v
    show v ∈ (cliqueNet { size := args.seedSize, adj := (ClearNet theNet args.netSize).adj }
      args.seedSize).adj w ↔ _
    rw [mem_cliqueNet]
    simp [ClearNet]
  have hprops := cliqueNet_props
    { size := args.seedSize, adj := (ClearNet theNet args.netSize).adj }
    (fun _ => List.nodup_nil) args.seedSize (Nat.le_refl _)
  refine ⟨hprops.1, ?_, ?_, ?_, hprops.2⟩
  · intro u v hv
    rw [hmem] at hv
    exact ⟨hv.1, hv.2.1⟩
  · intro u v hv
    rw [hmem] at hv ⊢
    exact ⟨hv.2.1, hv.1, fun e => hv.2.2 e.symm⟩
  · intro u hu
    rw [hmem] at hu
    exact hu.2.2 rfl

/-- In a fully connected seed of at least two nodes no node is isolated. -/
theorem cliqueSeed_degree_pos {σ : Type} (args : HolmeKimArgs) (theNet : Net) (s : σ)
    (h : 2 ≤ args.seedSize) :
    ∀ u < args.seedSize, 1 ≤ (seedNetwork cliqueSeed args theNet s).1.degree u := by
  intro u hu
  have hmem : (if u = 0 then 1 else 0) ∈ (seedNetwork cliqueSeed args theNet s).1.adj u := by
    show _ ∈ (cliqueNet { size := args.seedSize, adj := (ClearNet theNet args.netSize).adj }
      args.seedSize).adj u
    rw [mem_cliqueNet]
    right
    split <;> omega
  exact List.length_pos_of_mem hmem

/-- The floats of the sample random source lie in `[0, 1)`. -/
theorem sampleGen_normed (s : Nat) :
    0 ≤ (sampleGen.nextNormed s).1 ∧ (sampleGen.nextNormed s).1 < 1 := by
  show 0 ≤ mkRat ((s % 4 : Nat) : Int) 4 ∧ mkRat ((s % 4 : Nat) : Int) 4 < 1
  rw [Rat.mkRat_eq_div]
  have h4 : s % 4 < 4 := Nat.mod_lt s (by norm_num)
  constructor
  · positivity
  · rw [div_lt_one (by norm_num)]
    exact_mod_cast h4

/-! ## Reading the arguments -/

theorem readHolmeKimArgs_short (atoi : String → Int) (atof : String → ℚ) (argv : List String)
    (h : argv.length < 7) : readHolmeKimArgs atoi atof argv = .error 1 := by
  unfold readHolmeKimArgs
  rw [if_pos h]

theorem readHolmeKimArgs_tooLarge (atoi : String → Int) (atof : String → ℚ)
    (argv : List String) (h : ¬ argv.length < 7)
    (hgt : toSizeT (atoi (argAt argv 5)) > toSizeT (atoi (argAt argv 1))) :
    readHolmeKimArgs atoi atof argv = .error 1 := by
  unfold readHolmeKimArgs
  rw [if_neg h]
  simp only
  rw [if_pos hgt]

theorem readHolmeKimArgs_accepts (atoi : String → Int) (atof : String → ℚ)
    (argv : List String) (h : ¬ argv.length < 7)
    (hle : ¬ toSizeT (atoi (argAt argv 5)) > toSizeT (atoi (argAt argv 1))) :
    ∃ args, readHolmeKimArgs atoi atof argv = .ok args ∧
      args.netSize = toSizeT (atoi (argAt argv 1)) ∧
      args.m = toSizeT (atoi (argAt argv 3)) ∧
      args.seedSize = toSizeT (atoi (argAt argv 5)) ∧
      args.seedType =
        (if argAt argv 6 = "random" then SeedType.RANDOM
         else if argAt argv 6 = "clique" then SeedType.CLIQUE
         else if argAt argv 6 = "ring" then SeedType.RING
         else if argAt argv 6 = "chain" then SeedType.CHAIN
         else SeedType.RANDOM) := by
  unfold readHolmeKimArgs
  rw [if_neg h]
  simp only
  rw [if_neg hle]
  exact ⟨_, rfl, rfl, rfl, rfl, rfl⟩

/-! ## Further facts about a growth step -/

theorem length_flatMap_pair (i : Nat) (ts : List Nat) :
    (ts.flatMap (fun k => [i, k])).length = 2 * ts.length := by
  induction ts with
  | nil => rfl
  | cons k rest ih => simp only [List.flatMap_cons, List.length_append, ih]; simp; omega

theorem addNode_symm {σ : Type} {g : Generator σ} {args : HolmeKimArgs} {fuel : Nat}
    (i : Nat) (st st' : State σ) (h : ∀ u v, v ∈ st.theNet.adj u → u ∈ st.theNet.adj v)
    (hadd : addNode g args fuel i st = .ok st') :
    ∀ u v, v ∈ st'.theNet.adj u → u ∈ st'.theNet.adj v := by
  obtain ⟨sel, -, hnet, -⟩ := addNode_cases _ _ _ _ _ _ hadd
  intro u v hv
  rw [hnet, mem_linkTargets] at hv ⊢
  rcases hv with hv | hv | hv
  · exact Or.inl (h u v hv)
  · exact Or.inr (Or.inr hv)
  · exact Or.inr (Or.inl hv)

theorem grown_symm {σ : Type} (g : Generator σ) (seedGen : SeedGenerator σ) (args : HolmeKimArgs)
    (fuel : Nat) (theNet : Net) (s : σ) (k : Nat) (st : State σ)
    (h : ∀ u v, v ∈ (seedNetwork seedGen args theNet s).1.adj u →
      u ∈ (seedNetwork seedGen args theNet s).1.adj v)
    (hk : grown g seedGen args fuel theNet s k = .ok st) :
    ∀ u v, v ∈ st.theNet.adj u → u ∈ st.theNet.adj v :=
  growthLoop_induct g args fuel (fun _ st => ∀ u v, v ∈ st.theNet.adj u → u ∈ st.theNet.adj v)
    (fun i st st' => addNode_symm i st st') k args.seedSize _ st h hk

theorem addNode_edgesAt {σ : Type} {g : Generator σ} {args : HolmeKimArgs} {fuel : Nat}
    (i : Nat) (st st' : State σ) (h : Inv i st) (hadd : addNode g args fuel i st = .ok st') :
    ∀ u, st'.theNet.edgesAt u =
      st.theNet.edgesAt u + (if u = i then 1 + mMinusOne args.m else 0) := by
  obtain ⟨sel, hsel, hnet, -⟩ := addNode_cases _ _ _ _ _ _ hadd
  obtain ⟨-, hlen, -⟩ := selectTargets_inv _ _ _ _ _ hsel
  intro u
  rw [hnet, edgesAt_linkTargets i _ _ _ (h.fresh hsel) u, hlen]

theorem growthLoop_edgesAt {σ : Type} (g : Generator σ) (args : HolmeKimArgs) (fuel : Nat)
    (n : Nat) (st st' : State σ) (hinv : Inv args.seedSize st)
    (h : growthLoop g args fuel args.seedSize n st = .ok st') :
    ∀ u, args.seedSize ≤ u → u < args.seedSize + n →
      st'.theNet.edgesAt u = 1 + mMinusOne args.m :=
  (growthLoop_induct g args fuel
    (fun j st => Inv j st ∧ ∀ u, args.seedSize ≤ u → u < j →
      st.theNet.edgesAt u = 1 + mMinusOne args.m)
    (fun j st st' hP hadd => by
      refine ⟨hP.1.afterNode j st st' hadd, fun u hu huj => ?_⟩
      rw [addNode_edgesAt j st st' hP.1 hadd u]
      by_cases hj : u = j
      · subst hj
        rw [edgesAt_of_edgesBelow _ _ hP.1.edgesBelow, if_pos rfl]
        omega
      · rw [if_neg hj, hP.2 u hu (by omega), Nat.add_zero])
    n args.seedSize st st' ⟨hinv, fun u h1 h2 => absurd h1 (by omega)⟩ h).2

/-! ## Indices in bounds -/

theorem sampleGen_inRange : GenInRange sampleGen := by
  intro s n hn
  exact Nat.mod_lt _ hn

theorem pickPA_safe {σ : Type} (g : Generator σ) (PAVector targets : List Nat)
    (hg : GenInRange g) (hpa : PAVector ≠ []) :
    ∀ (fuel : Nat) (s : σ), pickPA g PAVector targets fuel s ≠ .error .outOfBounds := by
  intro fuel
  induction fuel with
  | zero => intro s h; simp [pickPA] at h
  | succ n ih =>
    intro s
    have hlt := hg s PAVector.length (List.length_pos.mpr hpa)
    rw [pickPA, List.getElem?_eq_getElem hlt]
    simp only
    split
    · exact ih _
    · exact fun h => Except.noConfusion h

theorem tfBranch_safe {σ : Type} (g : Generator σ) (fuel : Nat) (theNet : Net)
    (PAVector : List Nat) (x : Sel σ) (hg : GenInRange g) (hpa : PAVector ≠ []) :
    tfBranch g fuel theNet PAVector x ≠ .error .outOfBounds := by
  unfold tfBranch
  simp only
  split
  · rename_i hlen
    rw [List.getElem?_eq_getElem (hg x.gen _ hlen)]
    exact fun h => Except.noConfusion h
  · have := pickPA_safe g PAVector x.targets hg hpa fuel x.gen
    split
    · rename_i e he
      intro h
      rw [Except.error.injEq] at h
      exact this (h ▸ he)
    · exact fun h => Except.noConfusion h

theorem paBranch_safe {σ : Type} (g : Generator σ) (fuel : Nat)
    (PAVector : List Nat) (x : Sel σ) (hg : GenInRange g) (hpa : PAVector ≠ []) :
    paBranch g fuel PAVector x ≠ .error .outOfBounds := by
  unfold paBranch
  have := pickPA_safe g PAVector x.targets hg hpa fuel x.gen
  split
  · rename_i e he
    intro h
    rw [Except.error.injEq] at h
    exact this (h ▸ he)
  · exact fun h => Except.noConfusion h

theorem tossStep_safe {σ : Type} (g : Generator σ) (pt : ℚ) (fuel : Nat) (theNet : Net)
    (PAVector : List Nat) (x : Sel σ) (hg : GenInRange g) (hpa : PAVector ≠ []) :
    tossStep g pt fuel theNet PAVector x ≠ .error .outOfBounds := by
  unfold tossStep
  simp only
  split
  · rename_i e he
    intro h
    rw [Except.error.injEq] at h
    subst h
    split at he
    · exact tfBranch_safe g fuel theNet PAVector _ hg hpa he
    · exact Except.noConfusion he
  · split
    · exact paBranch_safe g fuel PAVector _ hg hpa
    · exact fun h => Except.noConfusion h

theorem tossLoop_safe {σ : Type} (g : Generator σ) (pt : ℚ) (fuel : Nat) (theNet : Net)
    (PAVector : List Nat) (hg : GenInRange g) (hpa : PAVector ≠ []) :
    ∀ (n : Nat) (x : Sel σ), tossLoop g pt fuel theNet PAVector n x ≠ .error .outOfBounds := by
  intro n
  induction n with
  | zero => intro x h; exact Except.noConfusion h
  | succ n ih =>
    intro x
    rw [tossLoop]
    split
    · rename_i e he
      intro h
      rw [Except.error.injEq] at h
      exact tossStep_safe g pt fuel theNet PAVector x hg hpa (h ▸ he)
    · exact ih _

theorem selectTargets_safe {σ : Type} (g : Generator σ) (args : HolmeKimArgs) (fuel : Nat)
    (st : State σ) (hg : GenInRange g) (hpa : st.PAVector ≠ []) :
    selectTargets g args fuel st ≠ .error .outOfBounds := by
  unfold selectTargets
  split
  · rename_i e he
    intro h
    rw [Except.error.injEq] at h
    exact pickPA_safe g st.PAVector [] hg hpa fuel st.gen (h ▸ he)
  · exact tossLoop_safe g args.pt fuel st.theNet st.PAVector hg hpa _ _

theorem addNode_safe {σ : Type} (g : Generator σ) (args : HolmeKimArgs) (fuel i : Nat)
    (st : State σ) (hg : GenInRange g) (hpa : st.PAVector ≠ []) :
    addNode g args fuel i st ≠ .error .outOfBounds := by
  unfold addNode
  split
  · rename_i e he
    intro h
    rw [Except.error.injEq] at h
    exact selectTargets_safe g args fuel st hg hpa (h ▸ he)
  · exact fun h => Except.noConfusion h

theorem addNode_PAVector_ne_nil {σ : Type} {g : Generator σ} {args : HolmeKimArgs}
    {fuel i : Nat} (st st' : State σ) (hpa : st.PAVector ≠ [])
    (hadd : addNode g args fuel i st = .ok st') : st'.PAVector ≠ [] := by
  obtain ⟨sel, -, -, h, -⟩ := addNode_cases _ _ _ _ _ _ hadd
  rw [h, linkTargets_snd]
  intro hnil
  exact hpa (List.append_eq_nil.mp hnil).1

theorem growthLoop_safe {σ : Type} (g : Generator σ) (args : HolmeKimArgs) (fuel : Nat)
    (hg : GenInRange g) :
    ∀ (n i : Nat) (st : State σ), st.PAVector ≠ [] →
      growthLoop g args fuel i n st ≠ .error .outOfBounds := by
  intro n
  induction n with
  | zero => intro i st _ h; exact Except.noConfusion h
  | succ n ih =>
    intro i st hpa
    rw [growthLoop]
    split
    · rename_i e he
      intro h
      rw [Except.error.injEq] at h
      exact addNode_safe g args fuel i st hg hpa (h ▸ he)
    · rename_i st1 hst1
      exact ih (i + 1) st1 (addNode_PAVector_ne_nil st st1 hpa hst1)

theorem seeded_PAVector_ne_nil {σ : Type} (seedGen : SeedGenerator σ) (args : HolmeKimArgs)
    (theNet : Net) (s : σ)
    (hseed : (seedNetwork seedGen args theNet s).1.EdgesBelow args.seedSize)
    (hedge : ∃ u v, v ∈ (seedNetwork seedGen args theNet s).1.adj u) :
    (seeded seedGen args theNet s).PAVector ≠ [] := by
  obtain ⟨u, v, hv⟩ := hedge
  have hinv := Inv.init seedGen args theNet s hseed
  have hpos : 0 < (seeded seedGen args theNet s).PAVector.count u := by
    rw [hinv.count_eq u]
    exact List.length_pos_of_mem hv
  exact List.ne_nil_of_mem (List.count_pos_iff.mp hpos)

theorem Inv.degree_pos {σ : Type} {i : Nat} {st : State σ} (h : Inv i st) :
    ∀ p ∈ st.PAVector, 1 ≤ st.theNet.degree p := by
  intro p hp
  rw [← h.count_eq p]
  exact List.count_pos_iff.mpr hp

theorem selectTargets_first {σ : Type} (g : Generator σ) (args : HolmeKimArgs) (fuel : Nat)
    (st : State σ) (sel : Sel σ) (h : selectTargets g args fuel st = .ok sel) :
    ∃ p s, pickPA g st.PAVector [] fuel st.gen = .ok (p, s) ∧
      tossLoop g args.pt fuel st.theNet st.PAVector (mMinusOne args.m) (firstSel st p s)
        = .ok sel := by
  unfold selectTargets at h
  split at h
  · simp at h
  · rename_i p s hp
    exact ⟨p, s, hp, h⟩

theorem availableNeighs_eq_nil (theNet : Net) (PANode : Nat) (targets : List Nat) :
    availableNeighs theNet PANode targets = [] ↔ ∀ v ∈ theNet.adj PANode, v ∈ targets := by
  unfold availableNeighs
  rw [List.filter_eq_nil_iff]
  simp

theorem tossLoop_selInv {σ : Type} (g : Generator σ) (pt : ℚ) (fuel : Nat) (st : State σ)
    (p : Nat) (s : σ) (hp : p ∈ st.PAVector) (j : Nat) (x : Sel σ)
    (h : tossLoop g pt fuel st.theNet st.PAVector j (firstSel st p s) = .ok x) :
    SelInv st.theNet st.PAVector x :=
  tossLoop_induct g pt fuel st.theNet st.PAVector (fun x => SelInv st.theNet st.PAVector x)
    (fun x x' => SelInv.afterToss x x') j _ x
    ⟨List.nodup_singleton p, rfl, List.mem_singleton_self p, hp,
      fun t ht => Or.inl (by rw [List.mem_singleton.mp ht]; exact hp)⟩ h

theorem length_le_dedup_of_subset {l l' : List Nat} (hnd : l.Nodup) (hsub : ∀ x ∈ l, x ∈ l') :
    l.length ≤ l'.dedup.length :=
  (List.subperm_of_subset hnd (fun x hx => List.mem_dedup.mpr (hsub x hx))).length_le

/-! ## Target selection that cannot finish -/

theorem length_le_of_nodup_of_lt {l : List Nat} {n : Nat} (hnd : l.Nodup)
    (hlt : ∀ x ∈ l, x < n) : l.length ≤ n := by
  have h := (List.subperm_of_subset hnd
    (fun x hx => List.mem_range.mpr (hlt x hx))).length_le
  rwa [List.length_range] at h

theorem selectTargets_never_ok {σ : Type} (g : Generator σ) (args : HolmeKimArgs) (i : Nat)
    (st : State σ) (hinv : Inv i st)
    (hsym : ∀ u v, v ∈ st.theNet.adj u → u ∈ st.theNet.adj v)
    (hfew : st.PAVector.dedup.length < 1 + mMinusOne args.m) :
    ∀ fuel sel, selectTargets g args fuel st ≠ .ok sel := by
  intro fuel sel hsel
  obtain ⟨hsi, hlen, -⟩ := selectTargets_inv _ _ _ _ _ hsel
  have hsub : ∀ t ∈ sel.targets, t ∈ st.PAVector := by
    intro t ht
    rcases hsi.reach t ht with h | ⟨p, -, hp⟩
    · exact h
    · have hpos : 0 < st.PAVector.count t := by
        rw [hinv.count_eq t]
        exact List.length_pos_of_mem (hsym p t hp)
      exact List.count_pos_iff.mp hpos
  have := length_le_dedup_of_subset hsi.nodup hsub
  omega

theorem pickPA_first {σ : Type} (g : Generator σ) (PAVector : List Nat)
    (hg : GenInRange g) (hpa : PAVector ≠ []) (fuel : Nat) (s : σ) :
    ∃ p s', p ∈ PAVector ∧ pickPA g PAVector [] (fuel + 1) s = .ok (p, s') := by
  have hlt := hg s PAVector.length (List.length_pos.mpr hpa)
  refine ⟨PAVector[(g.next s PAVector.length).1], (g.next s PAVector.length).2,
    List.getElem_mem _, ?_⟩
  rw [pickPA, List.getElem?_eq_getElem hlt]
  simp

theorem selectTargets_of_first {σ : Type} (g : Generator σ) (args : HolmeKimArgs) (fuel : Nat)
    (st : State σ) (p : Nat) (s' : σ) (h : pickPA g st.PAVector [] fuel st.gen = .ok (p, s')) :
    selectTargets g args fuel st =
      tossLoop g args.pt fuel st.theNet st.PAVector (mMinusOne args.m) (firstSel st p s') := by
  unfold selectTargets
  rw [h]
  rfl

theorem addNode_error {σ : Type} (g : Generator σ) (args : HolmeKimArgs) (fuel i : Nat)
    (st : State σ) (e : Fault) (h : selectTargets g args fuel st = .error e) :
    addNode g args fuel i st = .error e := by
  unfold addNode
  rw [h]

theorem growthLoop_error {σ : Type} (g : Generator σ) (args : HolmeKimArgs) (fuel i n : Nat)
    (st : State σ) (e : Fault) (h : selectTargets g args fuel st = .error e) :
    growthLoop g args fuel i (n + 1) st = .error e := by
  rw [growthLoop, addNode_error g args fuel i st e h]

theorem mMinusOne_zero : mMinusOne 0 = 2 ^ 64 - 1 := by
  unfold mMinusOne
  omega

/-! # The claims -/

/-- C1. In every growth step of `HolmeKim` (the step that adds node
`i = seedSize + k`, entered in the state reached after `k` steps), with
`m ≥ 1` and a seed network whose edges lie among the nodes `[0, seedSize)`: if
target selection completes, the target set has exactly `m` members, they are
pairwise distinct, and `i` is not one of them. -/
theorem targets_distinct_and_not_self {σ : Type} (g : Generator σ) (seedGen : SeedGenerator σ)
    (args : HolmeKimArgs) (fuel : Nat) (theNet : Net) (s : σ) (k : Nat) (st : State σ)
    (sel : Sel σ) (hm : 1 ≤ args.m) (hm64 : args.m < 2 ^ 64)
    (hseed : (seedNetwork seedGen args theNet s).1.EdgesBelow args.seedSize)
    (hk : grown g seedGen args fuel theNet s k = .ok st)
    (hsel : selectTargets g args fuel st = .ok sel) :
    sel.targets.length = args.m ∧ sel.targets.Nodup ∧ args.seedSize + k ∉ sel.targets := by
  have hinv := Inv.grown g seedGen args fuel theNet s k st hseed hk
  have hfresh := hinv.fresh hsel
  obtain ⟨-, hlen, -⟩ := selectTargets_inv _ _ _ _ _ hsel
  refine ⟨?_, hfresh.1, fun hmem => ?_⟩
  · rw [hlen, mMinusOne_of_pos hm hm64]; omega
  · exact absurd (hfresh.2 _ hmem).1 (Nat.lt_irrefl _)

/-- The sample run, third growth step (node 6): the two targets 1 and 3. -/
theorem targets_distinct_and_not_self_witness :
    (1 ≤ (sampleArgs halfPt).m ∧ (sampleArgs halfPt).m < 2 ^ 64) ∧
    (seedNetwork cliqueSeed (sampleArgs halfPt) emptyNet 0).1.EdgesBelow (sampleArgs halfPt).seedSize ∧
    grown sampleGen cliqueSeed (sampleArgs halfPt) 8 emptyNet 0 2 = .ok (sampleState halfPt 2) ∧
    selectTargets sampleGen (sampleArgs halfPt) 8 (sampleState halfPt 2)
      = .ok (sampleSel halfPt 2) ∧
    (sampleSel halfPt 2).targets = [1, 3] ∧
    ((sampleSel halfPt 2).targets.length = (sampleArgs halfPt).m ∧
      (sampleSel halfPt 2).targets.Nodup ∧
      (sampleArgs halfPt).seedSize + 2 ∉ (sampleSel halfPt 2).targets) :=
  have hseed := (cliqueSeed_contract (sampleArgs halfPt) emptyNet (0 : Nat)).edgesBelow
  have hk := eq_ok_okOr (grown sampleGen cliqueSeed (sampleArgs halfPt) 8 emptyNet 0 2) noState
    (by decide)
  have hsel := eq_ok_okOr (selectTargets sampleGen (sampleArgs halfPt) 8 (sampleState halfPt 2))
    noSel (by decide)
  ⟨⟨by decide, by decide⟩, hseed, hk, hsel, by decide,
    targets_distinct_and_not_self sampleGen cliqueSeed (sampleArgs halfPt) 8 emptyNet 0 2
      (sampleState halfPt 2) (sampleSel halfPt 2) (by decide) (by decide) hseed hk hsel⟩

/-- C2. For every completed run of `HolmeKim` with `m ≥ 1` and
`seedSize ≤ netSize`, on a seed network that meets the contract of the seed
generator, the final number of edges is the number of edges of the seed
network plus `m * (netSize - seedSize)`; and in every growth step each target
is a node to which the new node is not linked yet, so that every committed
link is a new edge. -/
theorem final_edge_count {σ : Type} (g : Generator σ) (seedGen : SeedGenerator σ)
    (args : HolmeKimArgs) (fuel : Nat) (theNet : Net) (s : σ) (st : State σ)
    (hm : 1 ≤ args.m) (hm64 : args.m < 2 ^ 64) (_hle : args.seedSize ≤ args.netSize)
    (hseed : SeedContract (seedNetwork seedGen args theNet s).1 args.netSize args.seedSize)
    (hrun : HolmeKim g seedGen args fuel theNet s = .ok st) :
    st.theNet.numEdges =
        (seedNetwork seedGen args theNet s).1.numEdges + args.m * (args.netSize - args.seedSize) ∧
      ∀ (k : Nat) (stk : State σ) (sel : Sel σ),
        grown g seedGen args fuel theNet s k = .ok stk →
        selectTargets g args fuel stk = .ok sel →
        ∀ t ∈ sel.targets, stk.theNet.contains (args.seedSize + k) t = false ∧
          stk.theNet.contains t (args.seedSize + k) = false := by
  constructor
  · have hinv := Inv.init seedGen args theNet s hseed.edgesBelow
    have hsize : (seeded seedGen args theNet s).theNet.size = args.seedSize := hseed.size_eq
    obtain ⟨-, h2, -⟩ := growthLoop_counts g args fuel (args.netSize - args.seedSize)
      args.seedSize _ st hinv hsize hrun
    rw [h2, mMinusOne_of_pos hm hm64, show 1 + (args.m - 1) = args.m by omega]
    rfl
  · intro k stk sel hk hsel t ht
    have hinv := Inv.grown g seedGen args fuel theNet s k stk hseed.edgesBelow hk
    obtain ⟨-, h1, h2⟩ := (hinv.fresh hsel).2 t ht
    simp only [Net.contains, decide_eq_false_iff_not]
    exact ⟨h1, h2⟩

/-- The sample run: 6 seed edges and 2 * 6 new ones. -/
theorem final_edge_count_witness :
    (1 ≤ (sampleArgs halfPt).m ∧ (sampleArgs halfPt).m < 2 ^ 64 ∧
      (sampleArgs halfPt).seedSize ≤ (sampleArgs halfPt).netSize) ∧
    SeedContract (seedNetwork cliqueSeed (sampleArgs halfPt) emptyNet 0).1
      (sampleArgs halfPt).netSize (sampleArgs halfPt).seedSize ∧
    HolmeKim sampleGen cliqueSeed (sampleArgs halfPt) 8 emptyNet 0 = .ok (sampleFinal halfPt) ∧
    (seedNetwork cliqueSeed (sampleArgs halfPt) emptyNet 0).1.numEdges = 6 ∧
    (sampleFinal halfPt).theNet.numEdges = 18 ∧
    (sampleFinal halfPt).theNet.numEdges =
      (seedNetwork cliqueSeed (sampleArgs halfPt) emptyNet 0).1.numEdges +
        (sampleArgs halfPt).m * ((sampleArgs halfPt).netSize - (sampleArgs halfPt).seedSize) :=
  have hseed := cliqueSeed_contract (sampleArgs halfPt) emptyNet (0 : Nat)
  have hrun := eq_ok_okOr (HolmeKim sampleGen cliqueSeed (sampleArgs halfPt) 8 emptyNet 0) noState
    (by decide)
  ⟨⟨by decide, by decide, by decide⟩, hseed, hrun, by decide, by decide,
    (final_edge_count sampleGen cliqueSeed (sampleArgs halfPt) 8 emptyNet 0
      (sampleFinal halfPt) (by decide) (by decide) (by decide) hseed hrun).1⟩

/-- C3. The degree-proportional multiset invariant.  In the state reached after
`k` growth steps (`k = 0`: after `PAVector` is initialised from the seed), on a
seed network that meets the contract of the seed generator: every node `u`
occurs in `PAVector` as often as its degree, so the length of `PAVector` is the
sum of all node degrees, which is twice the number of edges. -/
theorem PAVector_degree_invariant {σ : Type} (g : Generator σ) (seedGen : SeedGenerator σ)
    (args : HolmeKimArgs) (fuel : Nat) (theNet : Net) (s : σ) (k : Nat) (st : State σ)
    (_hk : args.seedSize + k ≤ args.netSize)
    (hseed : SeedContract (seedNetwork seedGen args theNet s).1 args.netSize args.seedSize)
    (hgrown : grown g seedGen args fuel theNet s k = .ok st) :
    (∀ u, st.PAVector.count u = st.theNet.degree u) ∧
      st.PAVector.length = st.theNet.degreeSum ∧
      st.theNet.degreeSum = 2 * st.theNet.numEdges := by
  have hinv0 := Inv.init seedGen args theNet s hseed.edgesBelow
  have hinv := Inv.grown g seedGen args fuel theNet s k st hseed.edgesBelow hgrown
  have hsize0 : (seeded seedGen args theNet s).theNet.size = args.seedSize := hseed.size_eq
  obtain ⟨h1, h2, h3⟩ := growthLoop_counts g args fuel k args.seedSize _ st hinv0
    hsize0 hgrown
  have hlen : st.PAVector.length = st.theNet.degreeSum := by
    rw [length_eq_sum_count (args.seedSize + k) _ (fun x hx => hinv.pa_lt x hx)]
    unfold Net.degreeSum
    rw [h1]
    congr 1
    apply List.map_congr_left
    intro u _
    exact hinv.count_eq u
  refine ⟨hinv.count_eq, hlen, ?_⟩
  rw [← hlen, h3, h2, pa_length_seeded seedGen args theNet s hseed]
  have : (seeded seedGen args theNet s).theNet = (seedNetwork seedGen args theNet s).1 := rfl
  rw [this]
  omega

/-- The sample run after three growth steps: 24 entries, 12 edges. -/
theorem PAVector_degree_invariant_witness :
    (sampleArgs halfPt).seedSize + 3 ≤ (sampleArgs halfPt).netSize ∧
    SeedContract (seedNetwork cliqueSeed (sampleArgs halfPt) emptyNet 0).1
      (sampleArgs halfPt).netSize (sampleArgs halfPt).seedSize ∧
    grown sampleGen cliqueSeed (sampleArgs halfPt) 8 emptyNet 0 3 = .ok (sampleState halfPt 3) ∧
    (sampleState halfPt 3).PAVector.length = 24 ∧
    ((∀ u, (sampleState halfPt 3).PAVector.count u = (sampleState halfPt 3).theNet.degree u) ∧
      (sampleState halfPt 3).PAVector.length = (sampleState halfPt 3).theNet.degreeSum ∧
      (sampleState halfPt 3).theNet.degreeSum = 2 * (sampleState halfPt 3).theNet.numEdges) :=
  have hseed := cliqueSeed_contract (sampleArgs halfPt) emptyNet (0 : Nat)
  have hk := eq_ok_okOr (grown sampleGen cliqueSeed (sampleArgs halfPt) 8 emptyNet 0 3) noState
    (by decide)
  ⟨by decide, hseed, hk, by decide,
    PAVector_degree_invariant sampleGen cliqueSeed (sampleArgs halfPt) 8 emptyNet 0 3
      (sampleState halfPt 3) (by decide) hseed hk⟩

/-- C4. For every completed run of `HolmeKim` with `m ≥ 1` and
`seedSize ≤ netSize`, whatever the random source returns and however often
the rejection loops retry, the toss counter is exactly
`(m-1) * (netSize - seedSize)`. -/
theorem toss_count_exact {σ : Type} (g : Generator σ) (seedGen : SeedGenerator σ)
    (args : HolmeKimArgs) (fuel : Nat) (theNet : Net) (s : σ) (st : State σ)
    (hm : 1 ≤ args.m) (hm64 : args.m < 2 ^ 64) (_hle : args.seedSize ≤ args.netSize)
    (hrun : HolmeKim g seedGen args fuel theNet s = .ok st) :
    st.tosscounter = (args.m - 1) * (args.netSize - args.seedSize) := by
  have h := growthLoop_toss g args fuel (args.netSize - args.seedSize) args.seedSize _ st hrun
  rw [h, mMinusOne_of_pos hm hm64]
  show 0 + _ = _
  omega

/-- The sample run with `pt = 0`, in which two draws are rejected: 6 tosses. -/
theorem toss_count_exact_witness :
    (1 ≤ (sampleArgs 0).m ∧ (sampleArgs 0).m < 2 ^ 64 ∧
      (sampleArgs 0).seedSize ≤ (sampleArgs 0).netSize) ∧
    HolmeKim sampleGen cliqueSeed (sampleArgs 0) 8 emptyNet 0 = .ok (sampleFinal 0) ∧
    (sampleFinal 0).gen = 20 ∧ (sampleFinal 0).tosscounter = 6 ∧
    (sampleFinal 0).tosscounter =
      ((sampleArgs 0).m - 1) * ((sampleArgs 0).netSize - (sampleArgs 0).seedSize) :=
  have hrun := eq_ok_okOr (HolmeKim sampleGen cliqueSeed (sampleArgs 0) 8 emptyNet 0) noState
    (by decide)
  ⟨⟨by decide, by decide, by decide⟩, hrun, by decide, by decide,
    toss_count_exact sampleGen cliqueSeed (sampleArgs 0) 8 emptyNet 0 (sampleFinal 0)
      (by decide) (by decide) (by decide) hrun⟩

/-- C5. For every completed run of `HolmeKim` whose seed network has no
isolated node among `[0, seedSize)`, every node `u` in `[0, netSize)` of the
final network has degree at least one.  (The first target of a new node is
picked whatever `m` is, so `m ≥ 1` is not needed.) -/
theorem no_isolated_node {σ : Type} (g : Generator σ) (seedGen : SeedGenerator σ)
    (args : HolmeKimArgs) (fuel : Nat) (theNet : Net) (s : σ) (st : State σ)
    (hiso : ∀ u < args.seedSize, 1 ≤ (seedNetwork seedGen args theNet s).1.degree u)
    (hrun : HolmeKim g seedGen args fuel theNet s = .ok st) :
    ∀ u < args.netSize, 1 ≤ st.theNet.degree u := by
  intro u hu
  have h := growthLoop_induct g args fuel (fun i st => ∀ u < i, 1 ≤ st.theNet.degree u)
    (fun i st st' => addNode_degree_pos i st st') (args.netSize - args.seedSize) args.seedSize
    _ st hiso hrun
  exact h u (by omega)

/-- The sample run: the degrees of the ten nodes of the final network. -/
theorem no_isolated_node_witness :
    (∀ u < (sampleArgs halfPt).seedSize,
      1 ≤ (seedNetwork cliqueSeed (sampleArgs halfPt) emptyNet 0).1.degree u) ∧
    HolmeKim sampleGen cliqueSeed (sampleArgs halfPt) 8 emptyNet 0 = .ok (sampleFinal halfPt) ∧
    (List.range 10).map (sampleFinal halfPt).theNet.degree = [3, 7, 6, 6, 3, 3, 2, 2, 2, 2] ∧
    ∀ u < (sampleArgs halfPt).netSize, 1 ≤ (sampleFinal halfPt).theNet.degree u :=
  have hiso := cliqueSeed_degree_pos (sampleArgs halfPt) emptyNet (0 : Nat) (by decide)
  have hrun := eq_ok_okOr (HolmeKim sampleGen cliqueSeed (sampleArgs halfPt) 8 emptyNet 0) noState
    (by decide)
  ⟨hiso, hrun, by decide,
    no_isolated_node sampleGen cliqueSeed (sampleArgs halfPt) 8 emptyNet 0 (sampleFinal halfPt)
      hiso hrun⟩

/-- C6. For every completed run of `HolmeKim` with `seedSize ≤ netSize`, on a
seed network that meets the contract of the seed generator (the initial graph
of `seedSize` nodes), the final node count of the network equals `netSize`:
every growth step creates one node. -/
theorem final_node_count {σ : Type} (g : Generator σ) (seedGen : SeedGenerator σ)
    (args : HolmeKimArgs) (fuel : Nat) (theNet : Net) (s : σ) (st : State σ)
    (hle : args.seedSize ≤ args.netSize)
    (hseed : SeedContract (seedNetwork seedGen args theNet s).1 args.netSize args.seedSize)
    (hrun : HolmeKim g seedGen args fuel theNet s = .ok st) :
    st.theNet.size = args.netSize := by
  have h := (growthLoop_counts g args fuel (args.netSize - args.seedSize) args.seedSize _ st
    (Inv.init seedGen args theNet s hseed.edgesBelow) hseed.size_eq hrun).1
  rw [h]
  omega

/-- The sample run: four nodes in the seed network, ten at the end. -/
theorem final_node_count_witness :
    (sampleArgs halfPt).seedSize ≤ (sampleArgs halfPt).netSize ∧
    SeedContract (seedNetwork cliqueSeed (sampleArgs halfPt) emptyNet 0).1
      (sampleArgs halfPt).netSize (sampleArgs halfPt).seedSize ∧
    HolmeKim sampleGen cliqueSeed (sampleArgs halfPt) 8 emptyNet 0 = .ok (sampleFinal halfPt) ∧
    (seedNetwork cliqueSeed (sampleArgs halfPt) emptyNet 0).1.size = 4 ∧
    (sampleFinal halfPt).theNet.size = 10 ∧
    (sampleFinal halfPt).theNet.size = (sampleArgs halfPt).netSize :=
  have hc := cliqueSeed_contract (sampleArgs halfPt) emptyNet (0 : Nat)
  have hrun := eq_ok_okOr (HolmeKim sampleGen cliqueSeed (sampleArgs halfPt) 8 emptyNet 0) noState
    (by decide)
  ⟨by decide, hc, hrun, by decide, by decide,
    final_node_count sampleGen cliqueSeed (sampleArgs halfPt) 8 emptyNet 0 (sampleFinal halfPt)
      (by decide) hc hrun⟩

/-- C7. When `pt ≤ 0` (in particular `pt = 0`) and the floats of the random
source lie in `[0, 1)`: after a completed run the TF-attempt counter is 0 and
every logged pick is a preferential-attachment draw; and in every growth step
the targets are the nodes of the picks, each of which is a preferential draw
of a node stored in `PAVector`. -/
theorem pt_zero_pure_PA {σ : Type} (g : Generator σ) (seedGen : SeedGenerator σ)
    (args : HolmeKimArgs) (fuel : Nat) (theNet : Net) (s : σ) (st : State σ)
    (hpt : args.pt ≤ 0)
    (hg : ∀ s', 0 ≤ (g.nextNormed s').1 ∧ (g.nextNormed s').1 < 1)
    (hrun : HolmeKim g seedGen args fuel theNet s = .ok st) :
    st.TFtosscounter = 0 ∧ (∀ e ∈ st.log, e.2.isPA = true) ∧
      ∀ (k : Nat) (stk : State σ) (sel : Sel σ),
        grown g seedGen args fuel theNet s k = .ok stk →
        selectTargets g args fuel stk = .ok sel →
        sel.targets = sel.picks.map Pick.node ∧
          ∀ p ∈ sel.picks, p.isPA = true ∧ p.node ∈ stk.PAVector := by
  have hg0 : ∀ s', 0 ≤ (g.nextNormed s').1 := fun s' => (hg s').1
  have h := growthLoop_induct g args fuel
    (fun _ st => st.TFtosscounter = 0 ∧ ∀ e ∈ st.log, e.2.isPA = true)
    (fun i st st' hP hadd => by
      obtain ⟨sel, hsel, -, -, -, htf, hlog⟩ := addNode_cases _ _ _ _ _ _ hadd
      obtain ⟨h1, h2⟩ := selectTargets_purePA g args fuel st sel hpt hg0 hsel
      refine ⟨by rw [htf, h1, hP.1], fun e he => ?_⟩
      rw [hlog, List.mem_append, List.mem_map] at he
      rcases he with he | ⟨p, hp, rfl⟩
      · exact hP.2 e he
      · exact (h2 p hp).1)
    (args.netSize - args.seedSize) args.seedSize _ st
    ⟨rfl, fun e he => absurd he (List.not_mem_nil e)⟩ hrun
  refine ⟨h.1, h.2, fun k stk sel _ hsel => ?_⟩
  exact ⟨(selectTargets_inv _ _ _ _ _ hsel).1.targets_eq,
    (selectTargets_purePA g args fuel stk sel hpt hg0 hsel).2⟩

/-- The scenario `netSize=10, seedSize=4, clique seed, m=2, pt=0.0`. -/
theorem pt_zero_pure_PA_witness :
    (sampleArgs 0).pt ≤ 0 ∧
    (∀ s', 0 ≤ (sampleGen.nextNormed s').1 ∧ (sampleGen.nextNormed s').1 < 1) ∧
    HolmeKim sampleGen cliqueSeed (sampleArgs 0) 8 emptyNet 0 = .ok (sampleFinal 0) ∧
    (sampleFinal 0).log.length = 12 ∧
    ((sampleFinal 0).TFtosscounter = 0 ∧ ∀ e ∈ (sampleFinal 0).log, e.2.isPA = true) :=
  have hrun := eq_ok_okOr (HolmeKim sampleGen cliqueSeed (sampleArgs 0) 8 emptyNet 0) noState
    (by decide)
  have h := pt_zero_pure_PA sampleGen cliqueSeed (sampleArgs 0) 8 emptyNet 0 (sampleFinal 0)
    (by decide) sampleGen_normed hrun
  ⟨by decide, sampleGen_normed, hrun, by decide, h.1, h.2.1⟩

/-- C8. When `pt ≥ 1` (in particular `pt = 1`), `m ≥ 1`, and the floats of the
random source lie in `[0, 1)`: after a completed run the TF-attempt counter
equals the toss counter, which is `(m-1) * (netSize - seedSize)`, and no
logged pick was made by the complementary branch `toss >= pt`. -/
theorem pt_one_all_TF {σ : Type} (g : Generator σ) (seedGen : SeedGenerator σ)
    (args : HolmeKimArgs) (fuel : Nat) (theNet : Net) (s : σ) (st : State σ)
    (hm : 1 ≤ args.m) (hm64 : args.m < 2 ^ 64)
    (hpt : 1 ≤ args.pt)
    (hg : ∀ s', 0 ≤ (g.nextNormed s').1 ∧ (g.nextNormed s').1 < 1)
    (hrun : HolmeKim g seedGen args fuel theNet s = .ok st) :
    st.TFtosscounter = st.tosscounter ∧
      st.tosscounter = (args.m - 1) * (args.netSize - args.seedSize) ∧
      ∀ e ∈ st.log, ∀ q, e.2 ≠ Pick.PA q := by
  have hg1 : ∀ s', (g.nextNormed s').1 < 1 := fun s' => (hg s').2
  have h := growthLoop_induct g args fuel
    (fun _ st => st.TFtosscounter = st.tosscounter ∧ ∀ e ∈ st.log, ∀ q, e.2 ≠ Pick.PA q)
    (fun i st st' hP hadd => by
      obtain ⟨sel, hsel, -, -, htc, htf, hlog⟩ := addNode_cases _ _ _ _ _ _ hadd
      obtain ⟨h1, h2⟩ := selectTargets_allTF g args fuel st sel hpt hg1 hsel
      refine ⟨by rw [htf, htc]; have := hP.1; omega, fun e he q => ?_⟩
      rw [hlog, List.mem_append, List.mem_map] at he
      rcases he with he | ⟨p, hp, rfl⟩
      · exact hP.2 e he q
      · exact h2 p hp q)
    (args.netSize - args.seedSize) args.seedSize _ st
    ⟨rfl, fun e he => absurd he (List.not_mem_nil e)⟩ hrun
  have htoss := growthLoop_toss g args fuel (args.netSize - args.seedSize) args.seedSize _ st hrun
  refine ⟨h.1, ?_, h.2⟩
  rw [htoss, mMinusOne_of_pos hm hm64]
  show 0 + _ = _
  omega

/-- The scenario `netSize=10, seedSize=4, clique seed, m=2, pt=1.0`. -/
theorem pt_one_all_TF_witness :
    (1 ≤ (sampleArgs 1).m ∧ (sampleArgs 1).m < 2 ^ 64) ∧ 1 ≤ (sampleArgs 1).pt ∧
    (∀ s', 0 ≤ (sampleGen.nextNormed s').1 ∧ (sampleGen.nextNormed s').1 < 1) ∧
    HolmeKim sampleGen cliqueSeed (sampleArgs 1) 8 emptyNet 0 = .ok (sampleFinal 1) ∧
    (sampleFinal 1).TFtosscounter = 6 ∧
    ((sampleFinal 1).TFtosscounter = (sampleFinal 1).tosscounter ∧
      (sampleFinal 1).tosscounter =
        ((sampleArgs 1).m - 1) * ((sampleArgs 1).netSize - (sampleArgs 1).seedSize) ∧
      ∀ e ∈ (sampleFinal 1).log, ∀ q, e.2 ≠ Pick.PA q) :=
  have hrun := eq_ok_okOr (HolmeKim sampleGen cliqueSeed (sampleArgs 1) 8 emptyNet 0) noState
    (by decide)
  ⟨⟨by decide, by decide⟩, by decide, sampleGen_normed, hrun, by decide,
    pt_one_all_TF sampleGen cliqueSeed (sampleArgs 1) 8 emptyNet 0 (sampleFinal 1)
      (by decide) (by decide) (by decide) sampleGen_normed hrun⟩

/-- C9. Triangle closure.  In the growth step that adds node `i`, for every
triangle formation pick (logged as `TF PANode TFNode`; the target set at that
moment consists of the nodes of the picks logged before it): `TFNode` is a
neighbour of `PANode`, `TFNode` is not yet in the target set, and `PANode` is
in the target set; and once the edges of `i` are committed, `PANode` and
`TFNode` are both neighbours of `i` (and `i` of them) while `TFNode` still is
a neighbour of `PANode`. -/
theorem triangle_closure {σ : Type} (g : Generator σ) (args : HolmeKimArgs) (fuel i : Nat)
    (st st' : State σ) (hadd : addNode g args fuel i st = .ok st') :
    ∃ sel, selectTargets g args fuel st = .ok sel ∧
      st'.log = st.log ++ sel.picks.map (fun p => (i, p)) ∧
      sel.targets = sel.picks.map Pick.node ∧
      ∀ pre post PANode TFNode, sel.picks = pre ++ Pick.TF PANode TFNode :: post →
        (st.theNet.contains PANode TFNode = true ∧ TFNode ∉ pre.map Pick.node ∧
          PANode ∈ pre.map Pick.node) ∧
        (st'.theNet.contains i PANode = true ∧ st'.theNet.contains PANode i = true) ∧
        (st'.theNet.contains i TFNode = true ∧ st'.theNet.contains TFNode i = true) ∧
        st'.theNet.contains PANode TFNode = true := by
  obtain ⟨sel, hsel, hnet, -, -, -, hlog⟩ := addNode_cases _ _ _ _ _ _ hadd
  have heq := (selectTargets_inv _ _ _ _ _ hsel).1.targets_eq
  refine ⟨sel, hsel, hlog, heq, fun pre post PANode TFNode hpicks => ?_⟩
  obtain ⟨h1, h2, h3⟩ := selectTargets_TF g args fuel st sel hsel pre post PANode TFNode hpicks
  have hP : PANode ∈ sel.targets := by
    rw [heq, hpicks, List.map_append]
    exact List.mem_append_left _ h2
  have hT : TFNode ∈ sel.targets := by
    rw [heq, hpicks]
    simp [Pick.node]
  simp only [Net.contains, decide_eq_true_eq, hnet, mem_linkTargets]
  exact ⟨⟨h1, h3, h2⟩, ⟨Or.inr (Or.inl ⟨trivial, hP⟩), Or.inr (Or.inr ⟨trivial, hP⟩)⟩,
    ⟨Or.inr (Or.inl ⟨trivial, hT⟩), Or.inr (Or.inr ⟨trivial, hT⟩)⟩, Or.inl h1⟩

/-- The sample run, first growth step (node 4): the preferential pick 1 and the
triangle formation pick 3, a neighbour of 1. -/
theorem triangle_closure_witness :
    addNode sampleGen (sampleArgs halfPt) 8 4 (sampleState halfPt 0) = .ok (sampleNext halfPt 0) ∧
    (sampleSel halfPt 0).picks = [Pick.initialPA 1, Pick.TF 1 3] ∧
    ((sampleNext halfPt 0).theNet.contains 4 1 = true ∧
      (sampleNext halfPt 0).theNet.contains 4 3 = true ∧
      (sampleNext halfPt 0).theNet.contains 1 3 = true) ∧
    ∃ sel, selectTargets sampleGen (sampleArgs halfPt) 8 (sampleState halfPt 0) = .ok sel ∧
      (sampleNext halfPt 0).log = (sampleState halfPt 0).log ++ sel.picks.map (fun p => (4, p)) ∧
      sel.targets = sel.picks.map Pick.node ∧
      ∀ pre post PANode TFNode, sel.picks = pre ++ Pick.TF PANode TFNode :: post →
        ((sampleState halfPt 0).theNet.contains PANode TFNode = true ∧
          TFNode ∉ pre.map Pick.node ∧ PANode ∈ pre.map Pick.node) ∧
        ((sampleNext halfPt 0).theNet.contains 4 PANode = true ∧
          (sampleNext halfPt 0).theNet.contains PANode 4 = true) ∧
        ((sampleNext halfPt 0).theNet.contains 4 TFNode = true ∧
          (sampleNext halfPt 0).theNet.contains TFNode 4 = true) ∧
        (sampleNext halfPt 0).theNet.contains PANode TFNode = true :=
  have hadd := eq_ok_okOr (addNode sampleGen (sampleArgs halfPt) 8 4 (sampleState halfPt 0))
    noState (by decide)
  ⟨hadd, by decide, by decide,
    triangle_closure sampleGen (sampleArgs halfPt) 8 4 (sampleState halfPt 0)
      (sampleNext halfPt 0) hadd⟩

/-- C10. Monotone growth.  In the growth step that adds node `i` (with
`m ≥ 1`), with the target set of `m` distinct nodes that target selection
returned: every neighbour relation present before the step is present after
it; the only ones added are those of the edges `(i, t)` for `t` in the target
set, all of which are present afterwards; and the neighbour collection of
every node other than `i` and the targets is unchanged. -/
theorem monotone_growth {σ : Type} (g : Generator σ) (args : HolmeKimArgs) (fuel i : Nat)
    (st st' : State σ) (hm : 1 ≤ args.m) (hm64 : args.m < 2 ^ 64)
    (hadd : addNode g args fuel i st = .ok st') :
    ∃ sel, selectTargets g args fuel st = .ok sel ∧
      (sel.targets.length = args.m ∧ sel.targets.Nodup) ∧
      (∀ u v, v ∈ st.theNet.adj u → v ∈ st'.theNet.adj u) ∧
      (∀ u v, v ∈ st'.theNet.adj u →
        v ∈ st.theNet.adj u ∨ (u = i ∧ v ∈ sel.targets) ∨ (v = i ∧ u ∈ sel.targets)) ∧
      (∀ t ∈ sel.targets, t ∈ st'.theNet.adj i ∧ i ∈ st'.theNet.adj t) ∧
      (∀ u, u ≠ i → u ∉ sel.targets → st'.theNet.adj u = st.theNet.adj u) := by
  obtain ⟨sel, hsel, hnet, -⟩ := addNode_cases _ _ _ _ _ _ hadd
  obtain ⟨hinv, hlen, -⟩ := selectTargets_inv _ _ _ _ _ hsel
  refine ⟨sel, hsel, ⟨?_, hinv.nodup⟩, ?_, ?_, ?_, ?_⟩
  · rw [hlen, mMinusOne_of_pos hm hm64]; omega
  · intro u v hv
    rw [hnet, mem_linkTargets]
    exact Or.inl hv
  · intro u v hv
    rwa [hnet, mem_linkTargets] at hv
  · intro t ht
    rw [hnet, mem_linkTargets, mem_linkTargets]
    exact ⟨Or.inr (Or.inl ⟨rfl, ht⟩), Or.inr (Or.inr ⟨rfl, ht⟩)⟩
  · intro u hi hu
    rw [hnet, linkTargets_adj_of_ne i _ _ _ u hi hu]

/-- The sample run, first growth step (node 4, targets 1 and 3). -/
theorem monotone_growth_witness :
    (1 ≤ (sampleArgs halfPt).m ∧ (sampleArgs halfPt).m < 2 ^ 64) ∧
    addNode sampleGen (sampleArgs halfPt) 8 4 (sampleState halfPt 0) = .ok (sampleNext halfPt 0) ∧
    (List.range 5).map (sampleState halfPt 0).theNet.adj
      = [[1, 2, 3], [0, 2, 3], [0, 1, 3], [0, 1, 2], []] ∧
    (List.range 5).map (sampleNext halfPt 0).theNet.adj
      = [[1, 2, 3], [0, 2, 3, 4], [0, 1, 3], [0, 1, 2, 4], [1, 3]] ∧
    ∃ sel, selectTargets sampleGen (sampleArgs halfPt) 8 (sampleState halfPt 0) = .ok sel ∧
      (sel.targets.length = (sampleArgs halfPt).m ∧ sel.targets.Nodup) ∧
      (∀ u v, v ∈ (sampleState halfPt 0).theNet.adj u → v ∈ (sampleNext halfPt 0).theNet.adj u) ∧
      (∀ u v, v ∈ (sampleNext halfPt 0).theNet.adj u →
        v ∈ (sampleState halfPt 0).theNet.adj u ∨ (u = 4 ∧ v ∈ sel.targets) ∨
          (v = 4 ∧ u ∈ sel.targets)) ∧
      (∀ t ∈ sel.targets, t ∈ (sampleNext halfPt 0).theNet.adj 4 ∧
        4 ∈ (sampleNext halfPt 0).theNet.adj t) ∧
      (∀ u, u ≠ 4 → u ∉ sel.targets →
        (sampleNext halfPt 0).theNet.adj u = (sampleState halfPt 0).theNet.adj u) :=
  have hadd := eq_ok_okOr (addNode sampleGen (sampleArgs halfPt) 8 4 (sampleState halfPt 0))
    noState (by decide)
  ⟨⟨by decide, by decide⟩, hadd, by decide, by decide,
    monotone_growth sampleGen (sampleArgs halfPt) 8 4 (sampleState halfPt 0)
      (sampleNext halfPt 0) (by decide) (by decide) hadd⟩

/-- C12. `readHolmeKimArgs` ends with `exit(1)`, returning no argument struct,
if and only if fewer than 6 arguments are supplied or the parsed `seedSize`
(the `size_t` value stored in the struct) is strictly greater than the parsed
`netSize`; it never exits with another status; and a command line of at least
6 arguments with `seedSize == netSize` is accepted. -/
theorem readHolmeKimArgs_abort_iff (atoi : String → Int) (atof : String → ℚ)
    (argv : List String) :
    (readHolmeKimArgs atoi atof argv = .error 1 ↔
      argv.length - 1 < 6 ∨
        toSizeT (atoi (argAt argv 5)) > toSizeT (atoi (argAt argv 1))) ∧
    (∀ e, readHolmeKimArgs atoi atof argv = .error e → e = 1) ∧
    (6 ≤ argv.length - 1 →
      toSizeT (atoi (argAt argv 5)) = toSizeT (atoi (argAt argv 1)) →
      ∃ args, readHolmeKimArgs atoi atof argv = .ok args ∧ args.seedSize = args.netSize) := by
  by_cases hlen : argv.length < 7
  · have hr := readHolmeKimArgs_short atoi atof argv hlen
    refine ⟨⟨fun _ => Or.inl (by omega), fun _ => hr⟩, ?_, fun h => absurd h (by omega)⟩
    intro e he
    rw [hr] at he
    exact (Except.error.inj he).symm
  · by_cases hgt : toSizeT (atoi (argAt argv 5)) > toSizeT (atoi (argAt argv 1))
    · have hr := readHolmeKimArgs_tooLarge atoi atof argv hlen hgt
      refine ⟨⟨fun _ => Or.inr hgt, fun _ => hr⟩, ?_, fun _ h => absurd hgt (by omega)⟩
      intro e he
      rw [hr] at he
      exact (Except.error.inj he).symm
    · obtain ⟨args, hr, h1, -, h3, -⟩ := readHolmeKimArgs_accepts atoi atof argv hlen hgt
      refine ⟨⟨fun h => ?_, fun h => ?_⟩, ?_, fun _ _ => ⟨args, hr, ?_⟩⟩
      · rw [hr] at h
        exact Except.noConfusion h
      · rcases h with h | h
        · exact absurd h (by omega)
        · exact absurd h hgt
      · intro e he
        rw [hr] at he
        exact Except.noConfusion he
      · rw [h1, h3]; omega

/-- The sample command line `HolmeKim 10 1 2 0.5 4 clique` is accepted, the
same with seed size 10 too, with seed size 11 not. -/
theorem readHolmeKimArgs_abort_iff_witness :
    (readHolmeKimArgs sampleAtoi sampleAtof (sampleArgv "2" "clique")).toOption.map
      (fun a => (a.netSize, a.m, a.seedSize)) = some (10, 2, 4) ∧
    (readHolmeKimArgs sampleAtoi sampleAtof
      ["HolmeKim", "10", "1", "2", "0.5", "10", "clique"]).toOption.map
      (fun a => (a.netSize, a.m, a.seedSize)) = some (10, 2, 10) ∧
    readHolmeKimArgs sampleAtoi sampleAtof
      ["HolmeKim", "10", "1", "2", "0.5", "11", "clique"] = .error 1 ∧
    ¬ ((sampleArgv "2" "clique").length - 1 < 6 ∨
        toSizeT (sampleAtoi (argAt (sampleArgv "2" "clique") 5)) >
          toSizeT (sampleAtoi (argAt (sampleArgv "2" "clique") 1))) ∧
    ¬ readHolmeKimArgs sampleAtoi sampleAtof (sampleArgv "2" "clique") = .error 1 :=
  ⟨by decide, by decide,
    readHolmeKimArgs_tooLarge sampleAtoi sampleAtof _ (by decide) (by decide), by decide,
    fun h => absurd
      ((readHolmeKimArgs_abort_iff sampleAtoi sampleAtof (sampleArgv "2" "clique")).1.mp h)
      (by decide)⟩

/-- C13. For every argument list that `readHolmeKimArgs` accepts, the seed-type
string `"random"` gives `RANDOM`, `"clique"` gives `CLIQUE`, `"ring"` gives
`RING`, `"chain"` gives `CHAIN`, and every other string gives `RANDOM`; and
whether the argument list is accepted does not depend on that string: with at
least 6 arguments and `seedSize ≤ netSize` the function returns. -/
theorem seedType_of_argument (atoi : String → Int) (atof : String → ℚ) (argv : List String) :
    (∀ args, readHolmeKimArgs atoi atof argv = .ok args →
      (argAt argv 6 = "random" → args.seedType = SeedType.RANDOM) ∧
      (argAt argv 6 = "clique" → args.seedType = SeedType.CLIQUE) ∧
      (argAt argv 6 = "ring" → args.seedType = SeedType.RING) ∧
      (argAt argv 6 = "chain" → args.seedType = SeedType.CHAIN) ∧
      (argAt argv 6 ≠ "random" → argAt argv 6 ≠ "clique" → argAt argv 6 ≠ "ring" →
        argAt argv 6 ≠ "chain" → args.seedType = SeedType.RANDOM)) ∧
    (6 ≤ argv.length - 1 →
      toSizeT (atoi (argAt argv 5)) ≤ toSizeT (atoi (argAt argv 1)) →
      ∃ args, readHolmeKimArgs atoi atof argv = .ok args) := by
  constructor
  · intro args hargs
    by_cases hlen : argv.length < 7
    · rw [readHolmeKimArgs_short atoi atof argv hlen] at hargs
      exact Except.noConfusion hargs
    · by_cases hgt : toSizeT (atoi (argAt argv 5)) > toSizeT (atoi (argAt argv 1))
      · rw [readHolmeKimArgs_tooLarge atoi atof argv hlen hgt] at hargs
        exact Except.noConfusion hargs
      · obtain ⟨args', hr, -, -, -, hty⟩ := readHolmeKimArgs_accepts atoi atof argv hlen hgt
        rw [hr] at hargs
        have heq : args' = args := Except.ok.inj hargs
        subst heq
        rw [hty]
        refine ⟨fun h => ?_, fun h => ?_, fun h => ?_, fun h => ?_, fun h1 h2 h3 h4 => ?_⟩
        · rw [if_pos h]
        · rw [h]; decide
        · rw [h]; decide
        · rw [h]; decide
        · rw [if_neg h1, if_neg h2, if_neg h3, if_neg h4]
  · intro hlen hle
    obtain ⟨args, hr, -⟩ := readHolmeKimArgs_accepts atoi atof argv (by omega) (by omega)
    exact ⟨args, hr⟩

/-- The sample command line with the seed types `clique` and, unknown to the
function, `star`. -/
theorem seedType_of_argument_witness :
    (readHolmeKimArgs sampleAtoi sampleAtof (sampleArgv "2" "clique")).toOption.map
      (fun a => a.seedType) = some SeedType.CLIQUE ∧
    (readHolmeKimArgs sampleAtoi sampleAtof (sampleArgv "2" "star")).toOption.map
      (fun a => a.seedType) = some SeedType.RANDOM ∧
    (6 ≤ (sampleArgv "2" "star").length - 1 ∧
      toSizeT (sampleAtoi (argAt (sampleArgv "2" "star") 5)) ≤
        toSizeT (sampleAtoi (argAt (sampleArgv "2" "star") 1))) ∧
    ∃ args, readHolmeKimArgs sampleAtoi sampleAtof (sampleArgv "2" "star") = .ok args :=
  ⟨by decide, by decide, by decide,
    (seedType_of_argument sampleAtoi sampleAtof (sampleArgv "2" "star")).2
      (by decide) (by decide)⟩

/-- C17. Order of `record_edge` and append-only growth.  In the growth step that
adds node `i` (with `m ≥ 1`), `PAVector` afterwards is `PAVector` before
followed by the pair `i`, `t` for each target `t` in the iteration order of
the target set; so its old contents are an unchanged leading part and its
length grows by exactly `2*m`. -/
theorem PAVector_append_only {σ : Type} (g : Generator σ) (args : HolmeKimArgs) (fuel i : Nat)
    (st st' : State σ) (hm : 1 ≤ args.m) (hm64 : args.m < 2 ^ 64)
    (hadd : addNode g args fuel i st = .ok st') :
    ∃ sel, selectTargets g args fuel st = .ok sel ∧
      st'.PAVector = st.PAVector ++ sel.targets.flatMap (fun t => [i, t]) ∧
      st'.PAVector.take st.PAVector.length = st.PAVector ∧
      st'.PAVector.length = st.PAVector.length + 2 * args.m := by
  obtain ⟨sel, hsel, -, hpa, -⟩ := addNode_cases _ _ _ _ _ _ hadd
  obtain ⟨-, hlen, -⟩ := selectTargets_inv _ _ _ _ _ hsel
  rw [linkTargets_snd] at hpa
  refine ⟨sel, hsel, hpa, ?_, ?_⟩
  · rw [hpa, List.take_left]
  · rw [hpa, List.length_append, length_flatMap_pair, hlen, mMinusOne_of_pos hm hm64]
    omega

/-- The sample run, first growth step (node 4, targets 1 and 3). -/
theorem PAVector_append_only_witness :
    (1 ≤ (sampleArgs halfPt).m ∧ (sampleArgs halfPt).m < 2 ^ 64) ∧
    addNode sampleGen (sampleArgs halfPt) 8 4 (sampleState halfPt 0) = .ok (sampleNext halfPt 0) ∧
    (sampleState halfPt 0).PAVector = [0, 0, 0, 1, 1, 1, 2, 2, 2, 3, 3, 3] ∧
    (sampleNext halfPt 0).PAVector = [0, 0, 0, 1, 1, 1, 2, 2, 2, 3, 3, 3, 4, 1, 4, 3] ∧
    ∃ sel, selectTargets sampleGen (sampleArgs halfPt) 8 (sampleState halfPt 0) = .ok sel ∧
      (sampleNext halfPt 0).PAVector =
        (sampleState halfPt 0).PAVector ++ sel.targets.flatMap (fun t => [4, t]) ∧
      (sampleNext halfPt 0).PAVector.take (sampleState halfPt 0).PAVector.length =
        (sampleState halfPt 0).PAVector ∧
      (sampleNext halfPt 0).PAVector.length =
        (sampleState halfPt 0).PAVector.length + 2 * (sampleArgs halfPt).m :=
  have hadd := eq_ok_okOr (addNode sampleGen (sampleArgs halfPt) 8 4 (sampleState halfPt 0))
    noState (by decide)
  ⟨⟨by decide, by decide⟩, hadd, by decide, by decide,
    PAVector_append_only sampleGen (sampleArgs halfPt) 8 4 (sampleState halfPt 0)
      (sampleNext halfPt 0) (by decide) (by decide) hadd⟩

/-- C18. For every growth step `i = seedSize + k` (in particular for every `i`
in `[seedSize, netSize)`), on a seed network that meets the contract of the
seed generator: before the step the network reports `i` nodes, and after all
edges for node `i` are committed it reports `i + 1` nodes. -/
theorem node_count_after_step {σ : Type} (g : Generator σ) (seedGen : SeedGenerator σ)
    (args : HolmeKimArgs) (fuel : Nat) (theNet : Net) (s : σ) (k : Nat) (stk st : State σ)
    (hseed : SeedContract (seedNetwork seedGen args theNet s).1 args.netSize args.seedSize)
    (hk : grown g seedGen args fuel theNet s k = .ok stk)
    (hadd : addNode g args fuel (args.seedSize + k) stk = .ok st) :
    stk.theNet.size = args.seedSize + k ∧ st.theNet.size = args.seedSize + k + 1 := by
  have hsize := (growthLoop_counts g args fuel k args.seedSize _ stk
    (Inv.init seedGen args theNet s hseed.edgesBelow) hseed.size_eq hk).1
  exact ⟨hsize, (addNode_counts (args.seedSize + k) stk st
    (Inv.grown g seedGen args fuel theNet s k stk hseed.edgesBelow hk) hsize hadd).1⟩

/-- The sample run, third growth step (node 6): six nodes before, seven
after. -/
theorem node_count_after_step_witness :
    SeedContract (seedNetwork cliqueSeed (sampleArgs halfPt) emptyNet 0).1
      (sampleArgs halfPt).netSize (sampleArgs halfPt).seedSize ∧
    grown sampleGen cliqueSeed (sampleArgs halfPt) 8 emptyNet 0 2 = .ok (sampleState halfPt 2) ∧
    addNode sampleGen (sampleArgs halfPt) 8 ((sampleArgs halfPt).seedSize + 2)
      (sampleState halfPt 2) = .ok (sampleNext halfPt 2) ∧
    ((sampleState halfPt 2).theNet.size = 6 ∧ (sampleNext halfPt 2).theNet.size = 7) ∧
    ((sampleState halfPt 2).theNet.size = (sampleArgs halfPt).seedSize + 2 ∧
      (sampleNext halfPt 2).theNet.size = (sampleArgs halfPt).seedSize + 2 + 1) :=
  have hc := cliqueSeed_contract (sampleArgs halfPt) emptyNet (0 : Nat)
  have hk := eq_ok_okOr (grown sampleGen cliqueSeed (sampleArgs halfPt) 8 emptyNet 0 2) noState
    (by decide)
  have hadd := eq_ok_okOr (addNode sampleGen (sampleArgs halfPt) 8 (4 + 2) (sampleState halfPt 2))
    noState (by decide)
  ⟨hc, hk, hadd, by decide,
    node_count_after_step sampleGen cliqueSeed (sampleArgs halfPt) 8 emptyNet 0 2
      (sampleState halfPt 2) (sampleNext halfPt 2) hc hk hadd⟩

/-- C19. New nodes attach only to older nodes.  On a seed network that meets
the contract of the seed generator (its edges lie among `[0, seedSize)`),
with `m ≥ 1`: every target chosen while adding node `i = seedSize + k` is an
identifier strictly less than `i` that had degree at least one before the
step; and in the final network of a completed run every node `i` with
`seedSize ≤ i < netSize` has exactly `m` neighbours with an identifier
smaller than `i`. -/
theorem targets_are_older_nodes {σ : Type} (g : Generator σ) (seedGen : SeedGenerator σ)
    (args : HolmeKimArgs) (fuel : Nat) (theNet : Net) (s : σ)
    (hm : 1 ≤ args.m) (hm64 : args.m < 2 ^ 64)
    (hseed : SeedContract (seedNetwork seedGen args theNet s).1 args.netSize args.seedSize) :
    (∀ (k : Nat) (stk : State σ) (sel : Sel σ),
      grown g seedGen args fuel theNet s k = .ok stk →
      selectTargets g args fuel stk = .ok sel →
      ∀ t ∈ sel.targets, t < args.seedSize + k ∧ 1 ≤ stk.theNet.degree t) ∧
    (∀ st : State σ, HolmeKim g seedGen args fuel theNet s = .ok st →
      ∀ i, args.seedSize ≤ i → i < args.netSize →
        ((st.theNet.adj i).filter (fun v => decide (v < i))).length = args.m) := by
  constructor
  · intro k stk sel hk hsel t ht
    have hinv := Inv.grown g seedGen args fuel theNet s k stk hseed.edgesBelow hk
    have hsym := grown_symm g seedGen args fuel theNet s k stk hseed.symm hk
    refine ⟨((hinv.fresh hsel).2 t ht).1, ?_⟩
    rcases (selectTargets_inv _ _ _ _ _ hsel).1.reach t ht with h | ⟨p, -, hp⟩
    · rw [← hinv.count_eq t]
      exact List.count_pos_iff.mpr h
    · exact List.length_pos_of_mem (hsym p t hp)
  · intro st hrun i hi1 hi2
    have h := growthLoop_edgesAt g args fuel (args.netSize - args.seedSize) _ st
      (Inv.init seedGen args theNet s hseed.edgesBelow) hrun i hi1 (by omega)
    rw [mMinusOne_of_pos hm hm64] at h
    show st.theNet.edgesAt i = args.m
    omega

/-- The sample run: the targets 1 and 3 of node 6, and the neighbours of node
6 in the final network. -/
theorem targets_are_older_nodes_witness :
    (1 ≤ (sampleArgs halfPt).m ∧ (sampleArgs halfPt).m < 2 ^ 64) ∧
    SeedContract (seedNetwork cliqueSeed (sampleArgs halfPt) emptyNet 0).1
      (sampleArgs halfPt).netSize (sampleArgs halfPt).seedSize ∧
    grown sampleGen cliqueSeed (sampleArgs halfPt) 8 emptyNet 0 2 = .ok (sampleState halfPt 2) ∧
    selectTargets sampleGen (sampleArgs halfPt) 8 (sampleState halfPt 2)
      = .ok (sampleSel halfPt 2) ∧
    HolmeKim sampleGen cliqueSeed (sampleArgs halfPt) 8 emptyNet 0 = .ok (sampleFinal halfPt) ∧
    (sampleSel halfPt 2).targets = [1, 3] ∧ (sampleFinal halfPt).theNet.adj 6 = [1, 3] ∧
    (∀ t ∈ (sampleSel halfPt 2).targets,
      t < (sampleArgs halfPt).seedSize + 2 ∧ 1 ≤ (sampleState halfPt 2).theNet.degree t) ∧
    (((sampleFinal halfPt).theNet.adj 6).filter (fun v => decide (v < 6))).length
      = (sampleArgs halfPt).m :=
  have hc := cliqueSeed_contract (sampleArgs halfPt) emptyNet (0 : Nat)
  have hk := eq_ok_okOr (grown sampleGen cliqueSeed (sampleArgs halfPt) 8 emptyNet 0 2) noState
    (by decide)
  have hsel := eq_ok_okOr (selectTargets sampleGen (sampleArgs halfPt) 8 (sampleState halfPt 2))
    noSel (by decide)
  have hrun := eq_ok_okOr (HolmeKim sampleGen cliqueSeed (sampleArgs halfPt) 8 emptyNet 0) noState
    (by decide)
  have h := targets_are_older_nodes sampleGen cliqueSeed (sampleArgs halfPt) 8 emptyNet 0
    (by decide) (by decide) hc
  ⟨⟨by decide, by decide⟩, hc, hk, hsel, hrun, by decide, by decide,
    h.1 2 (sampleState halfPt 2) (sampleSel halfPt 2) hk hsel,
    h.2 (sampleFinal halfPt) hrun 6 (by decide) (by decide)⟩

/-- C14. The first pick of a growth step is a preferential pick that becomes
the last PA node.  In every iteration of the toss loop exactly one node that
is not yet a target is added to the target set.  In a TF attempt
(`toss < pt`) it is added by a triangle formation pick off the last PA node
or by the PA fallback, and by the fallback if and only if every neighbour of
the last PA node is already in the target set; with `toss >= pt` it is added
by a PA pick.  A triangle formation pick leaves the last PA node unchanged;
every PA pick makes the picked node the last PA node. -/
theorem tf_attempt_and_last_PA_node {σ : Type} (g : Generator σ) (args : HolmeKimArgs)
    (fuel : Nat) (st : State σ) :
    (∀ sel, selectTargets g args fuel st = .ok sel →
      ∃ p s, pickPA g st.PAVector [] fuel st.gen = .ok (p, s) ∧
        (firstSel st p s).targets = [p] ∧ (firstSel st p s).PANode = p ∧
        tossLoop g args.pt fuel st.theNet st.PAVector (mMinusOne args.m) (firstSel st p s)
          = .ok sel) ∧
    (∀ x x', tossStep g args.pt fuel st.theNet st.PAVector x = .ok x' →
      ∃ pick, x'.picks = x.picks ++ [pick] ∧ x'.targets = x.targets ++ [pick.node] ∧
        pick.node ∉ x.targets ∧
        ((g.nextNormed x.gen).1 < args.pt →
          (pick = Pick.TF x.PANode pick.node ∨ pick = Pick.fallbackPA pick.node) ∧
          (pick = Pick.fallbackPA pick.node ↔
            ∀ v ∈ st.theNet.adj x.PANode, v ∈ x.targets)) ∧
        (args.pt ≤ (g.nextNormed x.gen).1 → pick = Pick.PA pick.node) ∧
        (pick.isPA = false → x'.PANode = x.PANode) ∧
        (pick.isPA = true → x'.PANode = pick.node)) := by
  constructor
  · intro sel hsel
    obtain ⟨p, s, hp, hloop⟩ := selectTargets_first g args fuel st sel hsel
    exact ⟨p, s, hp, rfl, rfl, hloop⟩
  · intro x x' h
    obtain ⟨pick, -, h2, h3, h4, h5⟩ := tossStep_spec _ _ _ _ _ _ _ h
    refine ⟨pick, h2, h3, h4, ?_⟩
    cases pick with
    | initialPA p => exact absurd h5 id
    | TF p t =>
      obtain ⟨htoss, hp, ht, hpa, -⟩ := h5
      subst hp
      refine ⟨fun _ => ⟨Or.inl rfl, ⟨fun e => Pick.noConfusion e, fun hall => ?_⟩⟩,
        fun hge => absurd htoss (not_lt.mpr hge), fun _ => hpa, fun e => ?_⟩
      · exact absurd (hall t ht) h4
      · exact absurd e (by simp [Pick.isPA])
    | fallbackPA p =>
      obtain ⟨htoss, -, hpa, -, havail⟩ := h5
      refine ⟨fun _ => ⟨Or.inr rfl, ⟨fun _ => (availableNeighs_eq_nil _ _ _).mp havail,
        fun _ => rfl⟩⟩, fun hge => absurd htoss (not_lt.mpr hge), fun e => ?_, fun _ => hpa⟩
      exact absurd e (by simp [Pick.isPA])
    | PA p =>
      obtain ⟨hge, -, hpa, -⟩ := h5
      refine ⟨fun htoss => absurd htoss (not_lt.mpr hge), fun _ => rfl, fun e => ?_,
        fun _ => hpa⟩
      exact absurd e (by simp [Pick.isPA])

/-- The sample run, first growth step: the pick of node 1, then a TF attempt
that takes its neighbour 3. -/
theorem tf_attempt_and_last_PA_node_witness :
    selectTargets sampleGen (sampleArgs halfPt) 8 (sampleState halfPt 0)
      = .ok (sampleSel halfPt 0) ∧
    (sampleSel halfPt 0).picks = [Pick.initialPA 1, Pick.TF 1 3] ∧
    (sampleSel halfPt 0).PANode = 1 ∧
    ∃ p s, pickPA sampleGen (sampleState halfPt 0).PAVector [] 8 (sampleState halfPt 0).gen
        = .ok (p, s) ∧
      (firstSel (sampleState halfPt 0) p s).targets = [p] ∧
      (firstSel (sampleState halfPt 0) p s).PANode = p ∧
      tossLoop sampleGen (sampleArgs halfPt).pt 8 (sampleState halfPt 0).theNet
        (sampleState halfPt 0).PAVector (mMinusOne (sampleArgs halfPt).m)
        (firstSel (sampleState halfPt 0) p s) = .ok (sampleSel halfPt 0) :=
  have hsel := eq_ok_okOr (selectTargets sampleGen (sampleArgs halfPt) 8 (sampleState halfPt 0))
    noSel (by decide)
  ⟨hsel, by decide, by decide,
    (tf_attempt_and_last_PA_node sampleGen (sampleArgs halfPt) 8 (sampleState halfPt 0)).1
      (sampleSel halfPt 0) hsel⟩

/-- C16. Sampling safety.  Provided the seed network has at least one edge (and
its edges lie among `[0, seedSize)`) and the random source returns integers
in `[0, n)` when asked for `next(n)`: in every state reached by the growth loop
`PAVector` is not empty; no index into `PAVector` or `availableNeighs` is out
of bounds, in target selection and in the whole run; every node that a PA
draw returns has at least one neighbour; and at the head of every iteration of
the toss loop `PANode` has at least one neighbour, so the assertion at the
start of a TF step holds. -/
theorem sampling_safe {σ : Type} (g : Generator σ) (seedGen : SeedGenerator σ)
    (args : HolmeKimArgs) (fuel : Nat) (theNet : Net) (s : σ) (k : Nat) (stk : State σ)
    (hg : GenInRange g)
    (hseed : (seedNetwork seedGen args theNet s).1.EdgesBelow args.seedSize)
    (hedge : ∃ u v, v ∈ (seedNetwork seedGen args theNet s).1.adj u)
    (hk : grown g seedGen args fuel theNet s k = .ok stk) :
    stk.PAVector ≠ [] ∧
    selectTargets g args fuel stk ≠ .error .outOfBounds ∧
    (∀ n, grown g seedGen args fuel theNet s n ≠ .error .outOfBounds) ∧
    (∀ targets fuel' s' p s'', pickPA g stk.PAVector targets fuel' s' = .ok (p, s'') →
      1 ≤ stk.theNet.degree p) ∧
    (∀ p s' j x, pickPA g stk.PAVector [] fuel stk.gen = .ok (p, s') →
      tossLoop g args.pt fuel stk.theNet stk.PAVector j (firstSel stk p s') = .ok x →
      stk.theNet.degree x.PANode ≠ 0) := by
  have hpa0 := seeded_PAVector_ne_nil seedGen args theNet s hseed hedge
  have hinv := Inv.grown g seedGen args fuel theNet s k stk hseed hk
  have hpa : stk.PAVector ≠ [] :=
    growthLoop_induct g args fuel (fun _ st => st.PAVector ≠ [])
      (fun i st st' h hadd => addNode_PAVector_ne_nil st st' h hadd) k args.seedSize _ stk
      hpa0 hk
  refine ⟨hpa, selectTargets_safe g args fuel stk hg hpa,
    fun n => growthLoop_safe g args fuel hg n args.seedSize _ hpa0, ?_, ?_⟩
  · intro targets fuel' s' p s'' hp
    exact hinv.degree_pos p (pickPA_ok _ _ _ _ _ _ _ hp).1
  · intro p s' j x hp hloop
    have hx := tossLoop_selInv g args.pt fuel stk p s' (pickPA_ok _ _ _ _ _ _ _ hp).1 j x hloop
    have := hinv.degree_pos x.PANode hx.pa_src
    omega

/-- The sample run after two growth steps. -/
theorem sampling_safe_witness :
    GenInRange sampleGen ∧
    (seedNetwork cliqueSeed (sampleArgs halfPt) emptyNet 0).1.EdgesBelow
      (sampleArgs halfPt).seedSize ∧
    (∃ u v, v ∈ (seedNetwork cliqueSeed (sampleArgs halfPt) emptyNet 0).1.adj u) ∧
    grown sampleGen cliqueSeed (sampleArgs halfPt) 8 emptyNet 0 2 = .ok (sampleState halfPt 2) ∧
    (sampleState halfPt 2).PAVector ≠ [] ∧
    selectTargets sampleGen (sampleArgs halfPt) 8 (sampleState halfPt 2) ≠ .error .outOfBounds :=
  have hc := cliqueSeed_contract (sampleArgs halfPt) emptyNet (0 : Nat)
  have hedge : ∃ u v, v ∈ (seedNetwork cliqueSeed (sampleArgs halfPt) emptyNet 0).1.adj u :=
    ⟨0, 1, by decide⟩
  have hk := eq_ok_okOr (grown sampleGen cliqueSeed (sampleArgs halfPt) 8 emptyNet 0 2) noState
    (by decide)
  have h := sampling_safe sampleGen cliqueSeed (sampleArgs halfPt) 8 emptyNet 0 2
    (sampleState halfPt 2) sampleGen_inRange hc.edgesBelow hedge hk
  ⟨sampleGen_inRange, hc.edgesBelow, hedge, hk, h.1, h.2.1⟩

/-- C15. Sampling stall.  On a seed network that meets the contract of the seed
generator, in a state reached by the growth loop: the distinct identifiers in
`PAVector` are the nodes of nonzero degree, and if `m` (with `m ≥ 1`) is
larger than their number, then target selection returns no target set,
whatever the random source draws and however many iterations the rejection
loops are allowed; with a random source that returns integers in `[0, n)`
and a seed that has an edge, every such bounded run of target selection ends
inside a rejection loop that has used up its iterations. -/
theorem sampling_stall {σ : Type} (g : Generator σ) (seedGen : SeedGenerator σ)
    (args : HolmeKimArgs) (fuel : Nat) (theNet : Net) (s : σ) (k : Nat) (stk : State σ)
    (hm : 1 ≤ args.m) (hm64 : args.m < 2 ^ 64)
    (hseed : SeedContract (seedNetwork seedGen args theNet s).1 args.netSize args.seedSize)
    (hk : grown g seedGen args fuel theNet s k = .ok stk)
    (hmany : stk.PAVector.dedup.length < args.m) :
    (∀ u, u ∈ stk.PAVector.dedup ↔ stk.theNet.degree u ≠ 0) ∧
    (∀ fuel' sel, selectTargets g args fuel' stk ≠ .ok sel) ∧
    (GenInRange g → (∃ u v, v ∈ (seedNetwork seedGen args theNet s).1.adj u) →
      ∀ fuel', selectTargets g args fuel' stk = .error .stalled) := by
  have hinv := Inv.grown g seedGen args fuel theNet s k stk hseed.edgesBelow hk
  have hsym := grown_symm g seedGen args fuel theNet s k stk hseed.symm hk
  have hnever : ∀ fuel' sel, selectTargets g args fuel' stk ≠ .ok sel := by
    intro fuel' sel hsel
    obtain ⟨hsi, hlen, -⟩ := selectTargets_inv _ _ _ _ _ hsel
    have hsub : ∀ t ∈ sel.targets, t ∈ stk.PAVector := by
      intro t ht
      rcases hsi.reach t ht with h | ⟨p, -, hp⟩
      · exact h
      · have hpos : 0 < stk.PAVector.count t := by
          rw [hinv.count_eq t]
          exact List.length_pos_of_mem (hsym p t hp)
        exact List.count_pos_iff.mp hpos
    have := length_le_dedup_of_subset hsi.nodup hsub
    rw [hlen, mMinusOne_of_pos hm hm64] at this
    omega
  refine ⟨fun u => ?_, hnever, fun hg hedge fuel' => ?_⟩
  · rw [List.mem_dedup, ← List.count_pos_iff, hinv.count_eq u]
    omega
  · have hpa : stk.PAVector ≠ [] :=
      growthLoop_induct g args fuel (fun _ st => st.PAVector ≠ [])
        (fun i st st' h hadd => addNode_PAVector_ne_nil st st' h hadd) k args.seedSize _ stk
        (seeded_PAVector_ne_nil seedGen args theNet s hseed.edgesBelow hedge) hk
    cases hres : selectTargets g args fuel' stk with
    | ok sel => exact absurd hres (hnever fuel' sel)
    | error e =>
      cases e with
      | stalled => rfl
      | outOfBounds => exact absurd hres (selectTargets_safe g args fuel' stk hg hpa)

/-- A seed of two linked nodes and `m = 3`: the first growth step stalls. -/
theorem sampling_stall_witness :
    (1 ≤ stallArgs.m ∧ stallArgs.m < 2 ^ 64) ∧
    SeedContract (seedNetwork cliqueSeed stallArgs emptyNet 0).1
      stallArgs.netSize stallArgs.seedSize ∧
    grown sampleGen cliqueSeed stallArgs 8 emptyNet 0 0
      = .ok (seeded cliqueSeed stallArgs emptyNet 0) ∧
    (seeded cliqueSeed stallArgs emptyNet (0 : Nat)).PAVector = [0, 1] ∧
    (seeded cliqueSeed stallArgs emptyNet (0 : Nat)).PAVector.dedup.length < stallArgs.m ∧
    GenInRange sampleGen ∧
    (∃ u v, v ∈ (seedNetwork cliqueSeed stallArgs emptyNet 0).1.adj u) ∧
    ∀ fuel', selectTargets sampleGen stallArgs fuel' (seeded cliqueSeed stallArgs emptyNet 0)
      = .error .stalled :=
  have hc := cliqueSeed_contract stallArgs emptyNet (0 : Nat)
  have hedge : ∃ u v, v ∈ (seedNetwork cliqueSeed stallArgs emptyNet 0).1.adj u :=
    ⟨0, 1, by decide⟩
  have hmany : (seeded cliqueSeed stallArgs emptyNet (0 : Nat)).PAVector.dedup.length
      < stallArgs.m := by decide
  ⟨⟨by decide, by decide⟩, hc, rfl, by decide, hmany, sampleGen_inRange, hedge,
    (sampling_stall sampleGen cliqueSeed stallArgs 8 emptyNet 0 0
      (seeded cliqueSeed stallArgs emptyNet 0) (by decide) (by decide) hc rfl hmany).2.2
      sampleGen_inRange hedge⟩

/-- C20. The value `m = 0` is not validated.  `readHolmeKimArgs` accepts a
command line whose third argument parses to 0 and stores `m = 0`, and for
`m = 0` the bound `args.m-1` of the toss loop is `2^64 - 1` on the 64-bit
`size_t`, not 0.  `HolmeKim` with `m = 0`, on a seed network that meets the
contract of the seed generator: returns at once when there is no node to add;
and when there is one, target selection for the first new node returns no
target set, empty or not, so the run does not return.  With a random source
that returns integers in `[0, n)` and a seed that has an edge, the first
preferential pick is made, the toss loop is entered behind it with the bound
`2^64 - 1`, and every bounded run ends inside a rejection loop. -/
theorem m_zero_not_validated :
    (∀ (atoi : String → Int) (atof : String → ℚ) (argv : List String),
      6 ≤ argv.length - 1 →
      toSizeT (atoi (argAt argv 5)) ≤ toSizeT (atoi (argAt argv 1)) →
      toSizeT (atoi (argAt argv 3)) = 0 →
      ∃ args, readHolmeKimArgs atoi atof argv = .ok args ∧ args.m = 0) ∧
    mMinusOne 0 = 2 ^ 64 - 1 ∧
    (∀ (σ : Type) (g : Generator σ) (seedGen : SeedGenerator σ) (args : HolmeKimArgs)
      (theNet : Net) (s : σ), args.m = 0 → args.seedSize < 2 ^ 64 →
      SeedContract (seedNetwork seedGen args theNet s).1 args.netSize args.seedSize →
      (args.netSize ≤ args.seedSize → ∀ fuel,
        HolmeKim g seedGen args fuel theNet s = .ok (seeded seedGen args theNet s)) ∧
      (∀ fuel sel, selectTargets g args fuel (seeded seedGen args theNet s) ≠ .ok sel) ∧
      (args.seedSize < args.netSize → ∀ fuel st,
        HolmeKim g seedGen args fuel theNet s ≠ .ok st) ∧
      (GenInRange g → (∃ u v, v ∈ (seedNetwork seedGen args theNet s).1.adj u) →
        (∀ fuel, ∃ p s', p ∈ (seeded seedGen args theNet s).PAVector ∧
          pickPA g (seeded seedGen args theNet s).PAVector [] (fuel + 1)
            (seeded seedGen args theNet s).gen = .ok (p, s') ∧
          selectTargets g args (fuel + 1) (seeded seedGen args theNet s) =
            tossLoop g args.pt (fuel + 1) (seeded seedGen args theNet s).theNet
              (seeded seedGen args theNet s).PAVector (2 ^ 64 - 1)
              (firstSel (seeded seedGen args theNet s) p s')) ∧
        (∀ fuel, selectTargets g args fuel (seeded seedGen args theNet s) = .error .stalled) ∧
        (args.seedSize < args.netSize → ∀ fuel,
          HolmeKim g seedGen args fuel theNet s = .error .stalled))) := by
  refine ⟨?_, mMinusOne_zero, ?_⟩
  · intro atoi atof argv hlen hle hm
    obtain ⟨args, hr, -, h2, -⟩ := readHolmeKimArgs_accepts atoi atof argv (by omega) (by omega)
    exact ⟨args, hr, h2.trans hm⟩
  · intro σ g seedGen args theNet s hm hsz hseed
    have hinv := Inv.init seedGen args theNet s hseed.edgesBelow
    have hfew : (seeded seedGen args theNet s).PAVector.dedup.length
        < 1 + mMinusOne args.m := by
      have h1 := length_le_of_nodup_of_lt (List.nodup_dedup (seeded seedGen args theNet s).PAVector)
        (fun x hx => hinv.pa_lt x (List.mem_dedup.mp hx))
      rw [hm, mMinusOne_zero]
      omega
    have hnever := selectTargets_never_ok g args args.seedSize _ hinv hseed.symm hfew
    have hsucc : args.seedSize < args.netSize →
        ∃ n, args.netSize - args.seedSize = n + 1 := fun h => ⟨args.netSize - args.seedSize - 1, by omega⟩
    refine ⟨fun hle fuel => ?_, hnever, fun hlt fuel st hrun => ?_, fun hg hedge => ?_⟩
    · unfold HolmeKim grown
      rw [Nat.sub_eq_zero_of_le hle]
      rfl
    · obtain ⟨n, hn⟩ := hsucc hlt
      unfold HolmeKim grown at hrun
      rw [hn, growthLoop] at hrun
      split at hrun
      · exact Except.noConfusion hrun
      · rename_i st1 hst1
        obtain ⟨sel, hsel, -⟩ := addNode_cases _ _ _ _ _ _ hst1
        exact hnever fuel sel hsel
    · have hpa := seeded_PAVector_ne_nil seedGen args theNet s hseed.edgesBelow hedge
      have hstall : ∀ fuel,
          selectTargets g args fuel (seeded seedGen args theNet s) = .error .stalled := by
        intro fuel
        cases hres : selectTargets g args fuel (seeded seedGen args theNet s) with
        | ok sel => exact absurd hres (hnever fuel sel)
        | error e =>
          cases e with
          | stalled => rfl
          | outOfBounds => exact absurd hres (selectTargets_safe g args fuel _ hg hpa)
      refine ⟨fun fuel => ?_, hstall, fun hlt fuel => ?_⟩
      · obtain ⟨p, s', hp, hpick⟩ := pickPA_first g _ hg hpa fuel (seeded seedGen args theNet s).gen
        refine ⟨p, s', hp, hpick, ?_⟩
        rw [selectTargets_of_first g args (fuel + 1) _ p s' hpick, hm, mMinusOne_zero]
      · obtain ⟨n, hn⟩ := hsucc hlt
        unfold HolmeKim grown
        rw [hn]
        exact growthLoop_error g args fuel args.seedSize n _ _ (hstall fuel)

/-- The sample command line with `m` given as `0`, and the sample run with
`m = 0`: the first pick is node 1, and the run stalls. -/
theorem m_zero_not_validated_witness :
    (6 ≤ (sampleArgv "0" "clique").length - 1 ∧
      toSizeT (sampleAtoi (argAt (sampleArgv "0" "clique") 5)) ≤
        toSizeT (sampleAtoi (argAt (sampleArgv "0" "clique") 1)) ∧
      toSizeT (sampleAtoi (argAt (sampleArgv "0" "clique") 3)) = 0) ∧
    (readHolmeKimArgs sampleAtoi sampleAtof (sampleArgv "0" "clique")).toOption.map
      (fun a => (a.netSize, a.m, a.seedSize)) = some (10, 0, 4) ∧
    (∃ args, readHolmeKimArgs sampleAtoi sampleAtof (sampleArgv "0" "clique") = .ok args ∧
      args.m = 0) ∧
    (zeroArgs.m = 0 ∧ zeroArgs.seedSize < 2 ^ 64 ∧ zeroArgs.seedSize < zeroArgs.netSize) ∧
    SeedContract (seedNetwork cliqueSeed zeroArgs emptyNet 0).1 zeroArgs.netSize
      zeroArgs.seedSize ∧
    GenInRange sampleGen ∧
    (∃ u v, v ∈ (seedNetwork cliqueSeed zeroArgs emptyNet 0).1.adj u) ∧
    (pickPA sampleGen (seeded cliqueSeed zeroArgs emptyNet 0).PAVector [] 8
      (seeded cliqueSeed zeroArgs emptyNet (0 : Nat)).gen).toOption = some (1, 1) ∧
    (∀ fuel, selectTargets sampleGen zeroArgs fuel (seeded cliqueSeed zeroArgs emptyNet 0)
      = .error .stalled) ∧
    (∀ fuel, HolmeKim sampleGen cliqueSeed zeroArgs fuel emptyNet 0 = .error .stalled) :=
  have hc := cliqueSeed_contract zeroArgs emptyNet (0 : Nat)
  have hedge : ∃ u v, v ∈ (seedNetwork cliqueSeed zeroArgs emptyNet 0).1.adj u :=
    ⟨0, 1, by decide⟩
  have h := (m_zero_not_validated.2.2 Nat sampleGen cliqueSeed zeroArgs emptyNet 0 rfl
    (by decide) hc).2.2.2 sampleGen_inRange hedge
  ⟨by decide, by decide,
    m_zero_not_validated.1 sampleAtoi sampleAtof (sampleArgv "0" "clique")
      (by decide) (by decide) (by decide),
    ⟨rfl, by decide, by decide⟩, hc, sampleGen_inRange, hedge, by decide, h.2.1,
    h.2.2 (by decide)⟩

end Lcelib
